import Mathlib

/-!
Verification of the ChainFury "fury" core engine (`server/fury/base.py`):
the Var schema model, python-annotation to schema inference
(`pyannotation_to_json_schema`, `func_to_vars`), the nested-path accessors
(`get_value_by_keys`, `put_value_by_keys`), the Node / Edge / Chain data
model, Kahn's topological sort (`topological_sort`,
`edge_array_to_adjacency_list`) and the sequential executor
(`Chain.__call__`).  Python dicts are embedded as insertion-ordered
association lists, Python `None` as the `null` value, raised exceptions as
`Except` errors.
-/

namespace ChainFury

/-! ## String-keyed insertion-ordered maps (Python `dict` with `str` keys) -/

/-- First-occurrence lookup of a string-keyed association list. -/
def lookupS {α : Type} : List (String × α) → String → Option α
  | [], _ => none
  | (k', v) :: rest, k => if k' = k then some v else lookupS rest k

/-- Python `d[k] = v`: update the existing entry in place, else append. -/
def setS {α : Type} : List (String × α) → String → α → List (String × α)
  | [], k, v => [(k, v)]
  | (k', v') :: rest, k, v =>
      if k' = k then (k', v) :: rest else (k', v') :: setS rest k v

theorem lookupS_setS_self {α : Type} (m : List (String × α)) (k : String) (v : α) :
    lookupS (setS m k v) k = some v := by
  induction m with
  | nil => simp [setS, lookupS]
  | cons p rest ih =>
      obtain ⟨k', v'⟩ := p
      by_cases h : k' = k <;> simp [setS, lookupS, h, ih]

theorem lookupS_setS_ne {α : Type} (m : List (String × α)) (k k' : String) (v : α)
    (h : k' ≠ k) : lookupS (setS m k v) k' = lookupS m k' := by
  induction m with
  | nil => simp [setS, lookupS, Ne.symm h]
  | cons p rest ih =>
      obtain ⟨k₀, v₀⟩ := p
      by_cases h0 : k₀ = k
      · subst h0
        simp [setS, lookupS, Ne.symm h]
      · simp [setS, lookupS, h0, ih]

/-! ## Values: nested structures of mappings, sequences and scalars.

Python `None` is embedded as `Value.null`; dict keys in a path may be
strings or integers (`1` and `"1"` are distinct keys, as in Python). -/

inductive Key : Type where
  | str (s : String)
  | int (n : Int)
deriving DecidableEq, Repr

inductive Value : Type where
  | null
  | bool (b : Bool)
  | num (n : Int)
  | str (s : String)
  | list (xs : List Value)
  | dict (fields : List (Key × Value))

/-- First-occurrence lookup in a `Key`-keyed Python dict. -/
def dictFind : List (Key × Value) → Key → Option Value
  | [], _ => none
  | (k', v) :: rest, k => if k' = k then some v else dictFind rest k

/-- Python `obj[key] = value` on a dict: update in place or append. -/
def dictSetK : List (Key × Value) → Key → Value → List (Key × Value)
  | [], k, v => [(k, v)]
  | (k', v') :: rest, k, v =>
      if k' = k then (k', v) :: rest else (k', v') :: dictSetK rest k v

theorem dictFind_dictSetK_self (fs : List (Key × Value)) (k : Key) (v : Value) :
    dictFind (dictSetK fs k v) k = some v := by
  induction fs with
  | nil => simp [dictSetK, dictFind]
  | cons p rest ih =>
      obtain ⟨k', v'⟩ := p
      by_cases h : k' = k <;> simp [dictSetK, dictFind, h, ih]

/-- Python `int(key)`: an `int` key is itself, a `str` key is parsed
(raising, i.e. `none`, when it is not an integer literal). -/
def intOfKey : Key → Option Int
  | .int n => some n
  | .str s => s.toInt?

def isContainer : Value → Bool
  | .dict _ => true
  | .list _ => true
  | _ => false

/-- `get_value_by_keys`: descend by each key; missing dict keys and
out-of-bounds indices yield `null`; the result is `none` only when Python's
`int(key)` coercion raises on a non-numeric string key over a sequence. -/
def getValueByKeys : Value → List Key → Option Value
  | obj, [] => some obj
  | .dict fs, k :: rest => getValueByKeys ((dictFind fs k).getD Value.null) rest
  | .list xs, k :: rest =>
      match intOfKey k with
      | none => none
      | some i =>
          if 0 ≤ i ∧ i < (xs.length : Int) then
            getValueByKeys ((xs.get? i.toNat).getD Value.null) rest
          else some Value.null
  | _, _ :: _ => some Value.null

/-- The fresh intermediate container `put_value_by_keys` creates:
`{}` when the next path segment is a string, `[]` when it is an integer. -/
def freshContainer : Key → Value
  | .str _ => .dict []
  | .int _ => .list []

/-- The container descended into at an intermediate step of
`put_value_by_keys`: the existing child when it is a dict or list,
otherwise a fresh container chosen by the next path segment. -/
def putChild (cur : Option Value) (nextKey : Key) : Value :=
  match cur with
  | some c => if isContainer c then c else freshContainer nextKey
  | none => freshContainer nextKey

/-- `put_value_by_keys` as a pure function (the Python original mutates
`obj` in place and returns `None`; this returns the mutated structure).
A non-`int` key over a sequence, or an out-of-bounds index, silently
no-ops, as does any non-container at an intermediate or terminal parent. -/
def putValueByKeys : Value → List Key → Value → Value
  | obj, [], _ => obj
  | .dict fs, [k], v => .dict (dictSetK fs k v)
  | .list xs, [k], v =>
      match k with
      | .int i =>
          if 0 ≤ i ∧ i < (xs.length : Int) then .list (xs.set i.toNat v) else .list xs
      | .str _ => .list xs
  | .dict fs, k :: k2 :: rest, v =>
      .dict (dictSetK fs k (putValueByKeys (putChild (dictFind fs k) k2) (k2 :: rest) v))
  | .list xs, k :: k2 :: rest, v =>
      match k with
      | .int i =>
          if 0 ≤ i ∧ i < (xs.length : Int) then
            .list (xs.set i.toNat (putValueByKeys (putChild (xs.get? i.toNat) k2) (k2 :: rest) v))
          else .list xs
      | .str _ => .list xs
  | obj, _ :: _, _ => obj

/-- The path's terminal position is writable in `obj`: descending exactly
as `put_value_by_keys` does (including its intermediate-container
creation), the final step actually performs an assignment. -/
def writable : Value → List Key → Bool
  | _, [] => false
  | .dict _, [_] => true
  | .list xs, [k] =>
      match k with
      | .int i => decide (0 ≤ i ∧ i < (xs.length : Int))
      | .str _ => false
  | .dict fs, k :: k2 :: rest => writable (putChild (dictFind fs k) k2) (k2 :: rest)
  | .list xs, k :: k2 :: rest =>
      match k with
      | .int i =>
          if 0 ≤ i ∧ i < (xs.length : Int) then
            writable (putChild (xs.get? i.toNat) k2) (k2 :: rest)
          else false
      | .str _ => false
  | _, _ :: _ => false

theorem get?_set_self {α : Type} (l : List α) (n : Nat) (v : α) (h : n < l.length) :
    (l.set n v).get? n = some v := by
  induction l generalizing n with
  | nil => simp at h
  | cons a rest ih =>
      cases n with
      | zero => simp [List.set]
      | succ m =>
          simp only [List.set, List.get?]
          exact ih m (by simpa using h)

/-- C6 core lemma: after a successful `put` at a writable path, `get` at the
same path retrieves exactly the stored value. -/
theorem get_put (v : Value) :
    ∀ (keys : List Key) (obj : Value), writable obj keys = true →
      getValueByKeys (putValueByKeys obj keys v) keys = some v := by
  intro keys
  induction keys with
  | nil => intro obj h; simp [writable] at h
  | cons k rest ih =>
      intro obj hw
      cases rest with
      | nil =>
          cases obj with
          | dict fs =>
              simp only [putValueByKeys, getValueByKeys, dictFind_dictSetK_self,
                Option.getD_some]
          | list xs =>
              cases k with
              | str s => simp [writable] at hw
              | int i =>
                  have hb : 0 ≤ i ∧ i < (xs.length : Int) := by
                    simpa [writable] using hw
                  have hn : i.toNat < xs.length := by omega
                  simp [putValueByKeys, getValueByKeys, intOfKey, hb.1, hb.2,
                    get?_set_self xs i.toNat v hn]
          | null => simp [writable] at hw
          | bool b => simp [writable] at hw
          | num n => simp [writable] at hw
          | str s => simp [writable] at hw
      | cons k2 rest2 =>
          cases obj with
          | dict fs =>
              have hw' : writable (putChild (dictFind fs k) k2) (k2 :: rest2) = true := by
                simpa [writable] using hw
              simp only [putValueByKeys, getValueByKeys, dictFind_dictSetK_self,
                Option.getD_some]
              exact ih _ hw'
          | list xs =>
              cases k with
              | str s => simp [writable] at hw
              | int i =>
                  by_cases hb : 0 ≤ i ∧ i < (xs.length : Int)
                  · have hw' : writable (putChild (xs.get? i.toNat) k2) (k2 :: rest2) = true := by
                      simpa [writable, hb] using hw
                    have hn : i.toNat < xs.length := by omega
                    simp only [putValueByKeys, getValueByKeys, intOfKey, hb, if_true,
                      List.length_set, if_pos]
                    rw [get?_set_self _ _ _ (by simpa using hn)]
                    exact ih _ hw'
                  · simp [writable, hb] at hw
          | null => simp [writable] at hw
          | bool b => simp [writable] at hw
          | num n => simp [writable] at hw
          | str s => simp [writable] at hw

/-! ## The Var schema model

`Var.type` is either a plain string or a list of Vars (union/sum type);
`additionalProperties` is either a single Var or a list of named Vars;
`value` is the runtime binding (initially Python `None` = `null`);
`loc` is the `_loc` extraction path (default `()` = `[]`). -/

mutual
inductive Var : Type where
  | mk (type : VarType) (format : String) (items : List Var)
       (additionalProperties : AddProps) (password : Bool) (required : Bool)
       (placeholder : String) (show_ : Bool) (name : String)
       (value : Value) (loc : List Key) : Var
inductive VarType : Type where
  | s (ty : String) : VarType
  | u (vs : List Var) : VarType
inductive AddProps : Type where
  | many (vs : List Var) : AddProps
  | one (v : Var) : AddProps
end

def Var.type : Var → VarType
  | .mk t _ _ _ _ _ _ _ _ _ _ => t

def Var.format : Var → String
  | .mk _ f _ _ _ _ _ _ _ _ _ => f

def Var.items : Var → List Var
  | .mk _ _ it _ _ _ _ _ _ _ _ => it

def Var.additionalProperties : Var → AddProps
  | .mk _ _ _ ap _ _ _ _ _ _ _ => ap

def Var.password : Var → Bool
  | .mk _ _ _ _ pw _ _ _ _ _ _ => pw

def Var.required : Var → Bool
  | .mk _ _ _ _ _ r _ _ _ _ _ => r

def Var.placeholder : Var → String
  | .mk _ _ _ _ _ _ p _ _ _ _ => p

def Var.show_ : Var → Bool
  | .mk _ _ _ _ _ _ _ sh _ _ _ => sh

def Var.name : Var → String
  | .mk _ _ _ _ _ _ _ _ n _ _ => n

def Var.value : Var → Value
  | .mk _ _ _ _ _ _ _ _ _ v _ => v

def Var.loc : Var → List Key
  | .mk _ _ _ _ _ _ _ _ _ _ l => l

/-- `Var(type=t)` with every other argument left at its Python default. -/
def var0 (t : VarType) : Var :=
  .mk t "" [] (.many []) false false "" false "" Value.null []

def Var.withFormat : Var → String → Var
  | .mk t _ it ap pw r p sh n v l, f => .mk t f it ap pw r p sh n v l

def Var.withItems : Var → List Var → Var
  | .mk t f _ ap pw r p sh n v l, it => .mk t f it ap pw r p sh n v l

def Var.withAddProps : Var → AddProps → Var
  | .mk t f it _ pw r p sh n v l, ap => .mk t f it ap pw r p sh n v l

def Var.withPassword : Var → Bool → Var
  | .mk t f it ap _ r p sh n v l, pw => .mk t f it ap pw r p sh n v l

def Var.withRequired : Var → Bool → Var
  | .mk t f it ap pw _ p sh n v l, r => .mk t f it ap pw r p sh n v l

def Var.withPlaceholder : Var → String → Var
  | .mk t f it ap pw r _ sh n v l, p => .mk t f it ap pw r p sh n v l

def Var.withShow : Var → Bool → Var
  | .mk t f it ap pw r p _ n v l, sh => .mk t f it ap pw r p sh n v l

def Var.withName : Var → String → Var
  | .mk t f it ap pw r p sh _ v l, n => .mk t f it ap pw r p sh n v l

/-- `Var.set_value`: store a runtime value on the Var (a mutation in the
source; functionally, the updated Var). -/
def Var.setValue : Var → Value → Var
  | .mk t f it ap pw r p sh n _ l, v => .mk t f it ap pw r p sh n v l

def Var.withLoc : Var → List Key → Var
  | .mk t f it ap pw r p sh n v _, l => .mk t f it ap pw r p sh n v l

/-! ## Native-signature inference (`pyannotation_to_json_schema`)

A Python annotation value, as `pyannotation_to_json_schema` dispatches on
it.  `unionOf` holds `x.__args__` of a `Union[...]`: the `typing` module
normalises the value `None` to the class `NoneType` there, so the member
for `Optional` unions is `pnone` (the class `NoneType`), never the value
`None` — which is what makes the source's `arg is not None` filter a
no-op.  `bareTuple` is a literal tuple of annotations (the
`isinstance(x, tuple)` branch). -/

inductive PyAnn : Type where
  | pstr | pint | pfloat | pbool | pbytes | plist | pdict
  | psecret | pmodel | pexc | pnone
  | slit (s : String)
  | listOf (a : PyAnn)
  | dictOf (k v : PyAnn)
  | tupleOf (args : List PyAnn)
  | unionOf (args : List PyAnn)
  | bareTuple (args : List PyAnn)
  | anyT

mutual
/-- `pyannotation_to_json_schema(x, allow_any, allow_exc, allow_none)`.
`Except.error` is a raised `ValueError` (or `IndexError` for a bare tuple
of arity < 2, where `x[1]` is evaluated before the list multiplication). -/
def pyannotationToJsonSchema (x : PyAnn) (allowAny allowExc allowNone : Bool) :
    Except String Var :=
  match x with
  | .pstr => .ok (var0 (.s "string"))
  | .pint => .ok (var0 (.s "number"))
  | .pfloat => .ok (var0 (.s "number"))
  | .pbool => .ok (var0 (.s "boolean"))
  | .pbytes => .ok ((var0 (.s "string")).withFormat "byte")
  | .plist => .ok ((var0 (.s "array")).withItems [var0 (.s "string")])
  | .pdict => .ok ((var0 (.s "object")).withAddProps (.one (var0 (.s "string"))))
  | .psecret => .ok ((var0 (.s "string")).withPassword true)
  | .pmodel => .ok (var0 (.s "model"))
  | .pexc =>
      if allowExc then .ok (var0 (.s "exception"))
      else .error "i0: Unsupported type"
  | .pnone =>
      if allowNone then .ok (var0 (.s "null"))
      else .error "i0: Unsupported type"
  | .slit _ => .ok (var0 (.s "string"))
  | .listOf a => do
      let v ← pyannotationToJsonSchema a allowAny allowExc allowNone
      .ok ((var0 (.s "array")).withItems [v])
  | .dictOf k v =>
      match k with
      | .pstr => do
          let vv ← pyannotationToJsonSchema v allowAny allowExc allowNone
          .ok ((var0 (.s "object")).withAddProps (.one vv))
      | _ => .error "i2: Unsupported type"
  | .tupleOf args => do
      let vs ← pyannListToSchemas args allowAny allowExc allowNone
      .ok ((var0 (.s "array")).withItems vs)
  | .unionOf args =>
      -- the source filters `arg is not None`, but `__args__` never holds the
      -- value `None` (it holds the class `NoneType`), so nothing is dropped
      let types := args
      match _h : types with
      | [t] => pyannotationToJsonSchema t allowAny allowExc allowNone
      | _ => do
          let vs ← pyannListToSchemas types allowAny allowExc allowNone
          .ok (var0 (.u vs))
  | .bareTuple args =>
      match args with
      | _ :: a1 :: _ => do
          let v1 ← pyannotationToJsonSchema a1 allowAny allowExc allowNone
          .ok ((var0 (.s "array")).withItems
            (List.flatten (List.replicate args.length [var0 (.s "string"), v1])))
      | _ => .error "IndexError: tuple index out of range"
  | .anyT =>
      if allowAny then .ok (var0 (.s "string"))
      else .error "i4: Unsupported type"

/-- The list comprehension `[pyannotation_to_json_schema(t, …) for t in ts]`:
left to right, the first raised error propagates. -/
def pyannListToSchemas (xs : List PyAnn) (allowAny allowExc allowNone : Bool) :
    Except String (List Var) :=
  match xs with
  | [] => .ok []
  | a :: rest => do
      let v ← pyannotationToJsonSchema a allowAny allowExc allowNone
      let vs ← pyannListToSchemas rest allowAny allowExc allowNone
      .ok (v :: vs)
end

/-- A declared parameter of a native function: its name, annotation, and
(for defaulted parameters) the stringified default value. -/
structure Param where
  name : String
  annotation : PyAnn
  default : Option String

/-- `func_to_vars`: map each parameter to a schema Var with
`required`/`name`/`placeholder`/`show` filled from the signature
(`allow_any = allow_exc = allow_none = False`). -/
def funcToVars (params : List Param) : Except String (List Var) :=
  params.mapM (fun p => do
    let schema ← pyannotationToJsonSchema p.annotation false false false
    let schema := schema.withRequired p.default.isNone
    let schema := schema.withName p.name
    let schema := schema.withPlaceholder (match p.default with
      | some d => d
      | none => "")
    let schema := if p.name.startsWith "_" then schema else schema.withShow true
    pure schema)

/-! ## Claims C4, C5, C6 -/

/-- C4: the claimed null-dropping does not happen.  The source's filter
`arg is not None` never removes the `NoneType` member (typing stores the
class `NoneType`, not the value `None`, in `__args__`), so an
`Optional[str]` parameter makes `func_to_vars` raise `i0 Unsupported type`
instead of producing `schema(str)`; in return position (`allow_none=True`)
it produces a two-member union, never unwrapped.  A union of two non-null
members does produce the claimed union Var. -/
theorem claim_C4_optional_union_not_unwrapped :
    funcToVars [⟨"x", .unionOf [.pstr, .pnone], none⟩] = .error "i0: Unsupported type"
    ∧ pyannotationToJsonSchema (.unionOf [.pstr, .pnone]) true true true =
        .ok (var0 (.u [var0 (.s "string"), var0 (.s "null")]))
    ∧ pyannotationToJsonSchema (.unionOf [.pstr, .pbool]) false false false =
        .ok (var0 (.u [var0 (.s "string"), var0 (.s "boolean")])) := by
  refine ⟨?_, ?_, ?_⟩ <;>
  · simp only [funcToVars, pyannotationToJsonSchema, pyannListToSchemas,
      List.mapM, List.mapM.loop]
    rfl

/-- C5: a typed `Tuple[str, bool]` annotation yields an array Var with the
two claimed item schemas, but a bare tuple annotation `(str, bool)` of
arity 2 yields FOUR items — `[Var(string), schema(x[1])] * len(x)` — with
the first item hardcoded to `string` and every pair built from `x[1]`,
not the claimed `[schema(str), schema(bool)]`. -/
theorem claim_C5_tuple_items :
    pyannotationToJsonSchema (.tupleOf [.pstr, .pbool]) false false false =
      .ok ((var0 (.s "array")).withItems [var0 (.s "string"), var0 (.s "boolean")])
    ∧ pyannotationToJsonSchema (.bareTuple [.pstr, .pbool]) false false false =
      .ok ((var0 (.s "array")).withItems
        [var0 (.s "string"), var0 (.s "boolean"), var0 (.s "string"), var0 (.s "boolean")]) := by
  refine ⟨?_, ?_⟩ <;>
  · simp only [pyannotationToJsonSchema, pyannListToSchemas]
    rfl

/-- C6: accessor inverse — for any nested structure `o`, any path `p` whose
terminal position is writable in `o` (the parent container exists after
`put`'s intermediate creation and, for a sequence parent, the terminal
index is an in-bounds integer), and any value `v`,
`get_value_by_keys(put_value_by_keys(o, p, v), p) = v`. -/
theorem claim_C6_accessor_inverse (o : Value) (p : List Key) (v : Value)
    (h : writable o p = true) :
    getValueByKeys (putValueByKeys o p v) p = some v :=
  get_put v p o h

/-- C6 witness: a concrete two-level structure with a list leaf. -/
theorem claim_C6_accessor_inverse_witness :
    writable (Value.dict [(Key.str "a", Value.list [Value.num 0, Value.num 0])])
        [Key.str "a", Key.int 1] = true
    ∧ getValueByKeys
        (putValueByKeys (Value.dict [(Key.str "a", Value.list [Value.num 0, Value.num 0])])
          [Key.str "a", Key.int 1] (Value.str "hi"))
        [Key.str "a", Key.int 1] = some (Value.str "hi") :=
  ⟨rfl, claim_C6_accessor_inverse _ _ _ rfl⟩

/-! ## Edges, adjacency lists and `topological_sort` -/

/-- `Edge(src_node_id, trg_node_id, *connections)`: each connection names
`(src_output_name, trg_field_name)`. -/
structure Edge : Type where
  src_node_id : String
  trg_node_id : String
  connections : List (String × String)
deriving DecidableEq, Repr

/-- Errors raised by Chain construction and execution. -/
inductive ChainError : Type where
  | notDAGError
  | missingNode (id : String)
  | missingValue (key : String)
  | nodeError (msg : String)
deriving DecidableEq, Repr

/-- One step of `edge_array_to_adjacency_list`: append `dst` to the list of
`src` (creating the entry at the end on first sight, as dict insertion). -/
def addEdge : List (String × List String) → String → String → List (String × List String)
  | [], src, dst => [(src, [dst])]
  | (s, ds) :: rest, src, dst =>
      if s = src then (s, ds ++ [dst]) :: rest else (s, ds) :: addEdge rest src dst

/-- `edge_array_to_adjacency_list`. -/
def edgeArrayToAdjacencyList (edges : List Edge) : List (String × List String) :=
  edges.foldl (fun a e => addEdge a e.src_node_id e.trg_node_id) []

/-- Dict lookup `adjacency_lists.get(node, [])`. -/
def lookupAdj : List (String × List String) → String → List String
  | [], _ => []
  | (s, ds) :: rest, n => if s = n then ds else lookupAdj rest n

/-- The in-degree bumps of one adjacency entry's target list. -/
def bumpTargets (deg : String → Int) : List String → String → Int
  | [], n => deg n
  | dst :: rest, n => bumpTargets (fun m => if m = dst then deg m + 1 else deg m) rest n

/-- The `in_degree` defaultdict after the initial counting loop. -/
def initInDegree (adj : List (String × List String)) : String → Int :=
  adj.foldl (fun dg p => bumpTargets dg p.2) (fun _ => 0)

/-- The initial queue: adjacency keys with in-degree 0, in insertion order. -/
def seedQueue (adj : List (String × List String)) : List String :=
  (adj.map Prod.fst).filter (fun n => initInDegree adj n = 0)

/-- The inner `for neighbor in neighbours` loop: decrement each neighbour's
in-degree and enqueue it the moment it reaches 0. -/
def processNeighbors :
    List String → (String → Int) → List String → (String → Int) × List String
  | [], deg, queue => (deg, queue)
  | d :: rest, deg, queue =>
      let deg2 : String → Int := fun n => if n = d then deg n - 1 else deg n
      processNeighbors rest deg2 (if deg2 d = 0 then queue ++ [d] else queue)

/-- The `while queue` loop of `topological_sort`, with explicit fuel (the
caller passes more fuel than the loop can ever consume: each iteration
emits one more distinct node).  Returns the emitted list and the terminal
node counter `edge_nodes_cntr`. -/
def kahnLoop (adj : List (String × List String)) :
    Nat → List String → (String → Int) → List String → Nat →
    Option (List String × Nat)
  | 0, _, _, _, _ => none
  | _ + 1, [], _, sorted, cntr => some (sorted, cntr)
  | fuel + 1, node :: rest, deg, sorted, cntr =>
      let ns := lookupAdj adj node
      let cntr2 := if ns.isEmpty then cntr + 1 else cntr
      let p := processNeighbors ns deg rest
      kahnLoop adj fuel p.2 p.1 (sorted ++ [node]) cntr2

/-- Every node name the algorithm can ever touch: adjacency keys and all
targets.  Its length bounds the number of loop iterations. -/
def allNodesList (adj : List (String × List String)) : List String :=
  adj.map Prod.fst ++ (adj.map Prod.snd).flatten

/-- `topological_sort(edges)`: Kahn's algorithm; `NotDAGError` when the
emitted length disagrees with `len(adjacency_lists) + edge_nodes_cntr`. -/
def topologicalSort (edges : List Edge) : Except ChainError (List String) :=
  let adj := edgeArrayToAdjacencyList edges
  match kahnLoop adj (allNodesList adj).length.succ (seedQueue adj)
      (initInDegree adj) [] 0 with
  | none => .error .notDAGError
  | some (sorted, cntr) =>
      if sorted.length = adj.length + cntr then .ok sorted
      else .error .notDAGError

/-- A directed edge of the underlying graph of an edge list. -/
def EdgeRel (edges : List Edge) (u v : String) : Prop :=
  ∃ e ∈ edges, e.src_node_id = u ∧ e.trg_node_id = v

/-- The underlying directed graph of the edge list contains a cycle:
some node reaches itself by a nonempty edge path. -/
def HasCycle (edges : List Edge) : Prop :=
  ∃ u, Relation.TransGen (EdgeRel edges) u u

/-! ### Adjacency-list characterisations -/

theorem lookupAdj_addEdge (a : List (String × List String)) (s d n : String) :
    lookupAdj (addEdge a s d) n =
      if s = n then lookupAdj a n ++ [d] else lookupAdj a n := by
  induction a with
  | nil =>
      by_cases h : s = n <;> simp [addEdge, lookupAdj, h]
  | cons p rest ih =>
      obtain ⟨s0, ds⟩ := p
      by_cases h0 : s0 = s
      · subst h0
        by_cases h1 : s0 = n <;> simp [addEdge, lookupAdj, h1]
      · by_cases h1 : s0 = n
        · subst h1
          have : s ≠ s0 := fun hc => h0 hc.symm
          simp [addEdge, lookupAdj, h0, this]
        · simp [addEdge, lookupAdj, h0, h1, ih]

theorem keys_addEdge (a : List (String × List String)) (s d : String) :
    (addEdge a s d).map Prod.fst =
      if s ∈ a.map Prod.fst then a.map Prod.fst else a.map Prod.fst ++ [s] := by
  induction a with
  | nil => simp [addEdge]
  | cons p rest ih =>
      obtain ⟨s0, ds⟩ := p
      by_cases h0 : s0 = s
      · subst h0
        simp [addEdge]
      · have : s0 ≠ s := h0
        by_cases h1 : s ∈ rest.map Prod.fst <;>
          simp [addEdge, h0, ih, h1, Ne.symm this]

theorem keysNodup_addEdge (a : List (String × List String)) (s d : String)
    (h : (a.map Prod.fst).Nodup) : ((addEdge a s d).map Prod.fst).Nodup := by
  rw [keys_addEdge]
  by_cases hm : s ∈ a.map Prod.fst
  · simpa [hm] using h
  · rw [if_neg hm, List.nodup_append]
    refine ⟨h, List.nodup_singleton s, ?_⟩
    intro x hx hxs
    rw [List.mem_singleton] at hxs
    subst hxs
    exact hm hx

theorem valsNonempty_addEdge (a : List (String × List String)) (s d : String)
    (h : ∀ p ∈ a, p.2 ≠ []) : ∀ p ∈ addEdge a s d, p.2 ≠ [] := by
  induction a with
  | nil =>
      intro p hp
      simp [addEdge] at hp
      subst hp
      simp
  | cons q rest ih =>
      obtain ⟨s0, ds⟩ := q
      intro p hp
      by_cases h0 : s0 = s
      · subst h0
        simp [addEdge] at hp
        rcases hp with hp | hp
        · subst hp; simp
        · exact h p (List.mem_cons_of_mem _ hp)
      · simp [addEdge, h0] at hp
        rcases hp with hp | hp
        · subst hp
          exact h (s0, ds) (List.mem_cons_self _ _)
        · exact ih (fun q hq => h q (List.mem_cons_of_mem _ hq)) p hp

theorem targets_addEdge (a : List (String × List String)) (s d v : String) :
    (v ∈ ((addEdge a s d).map Prod.snd).flatten) ↔
      v ∈ (a.map Prod.snd).flatten ∨ v = d := by
  induction a with
  | nil => simp [addEdge]
  | cons p rest ih =>
      obtain ⟨s0, ds⟩ := p
      by_cases h0 : s0 = s
      · subst h0
        rw [show addEdge ((s0, ds) :: rest) s0 d = (s0, ds ++ [d]) :: rest from by
          simp [addEdge]]
        simp only [List.map_cons, List.flatten_cons, List.mem_append, List.mem_singleton]
        tauto
      · rw [show addEdge ((s0, ds) :: rest) s d = (s0, ds) :: addEdge rest s d from by
          simp [addEdge, h0]]
        simp only [List.map_cons, List.flatten_cons, List.mem_append, List.mem_singleton, ih]
        tauto

/-- Membership in the built adjacency list, characterised by the edges. -/
theorem mem_lookupAdj_iff (edges : List Edge) (u v : String) :
    v ∈ lookupAdj (edgeArrayToAdjacencyList edges) u ↔ EdgeRel edges u v := by
  suffices h : ∀ (es : List Edge) (acc : List (String × List String)),
      v ∈ lookupAdj (es.foldl (fun a e => addEdge a e.src_node_id e.trg_node_id) acc) u ↔
        v ∈ lookupAdj acc u ∨ ∃ e ∈ es, e.src_node_id = u ∧ e.trg_node_id = v by
    have := h edges []
    simpa [edgeArrayToAdjacencyList, lookupAdj, EdgeRel] using this
  intro es
  induction es with
  | nil => simp
  | cons e rest ih =>
      intro acc
      simp only [List.foldl_cons, ih, lookupAdj_addEdge]
      by_cases h : e.src_node_id = u
      · rw [if_pos h]
        constructor
        · rintro (hv | ⟨e', he', hu, hv⟩)
          · rcases List.mem_append.mp hv with hv | hv
            · exact Or.inl hv
            · rw [List.mem_singleton] at hv
              exact Or.inr ⟨e, List.mem_cons_self _ _, h, hv.symm⟩
          · exact Or.inr ⟨e', List.mem_cons_of_mem _ he', hu, hv⟩
        · rintro (hv | ⟨e', he', hu, hv⟩)
          · exact Or.inl (List.mem_append.mpr (Or.inl hv))
          · rcases List.mem_cons.mp he' with he' | he'
            · subst he'
              exact Or.inl (List.mem_append.mpr (Or.inr (by
                rw [List.mem_singleton]; exact hv.symm)))
            · exact Or.inr ⟨e', he', hu, hv⟩
      · rw [if_neg h]
        constructor
        · rintro (hv | ⟨e', he', hu, hv⟩)
          · exact Or.inl hv
          · exact Or.inr ⟨e', List.mem_cons_of_mem _ he', hu, hv⟩
        · rintro (hv | ⟨e', he', hu, hv⟩)
          · exact Or.inl hv
          · rcases List.mem_cons.mp he' with he' | he'
            · subst he'
              exact absurd hu h
            · exact Or.inr ⟨e', he', hu, hv⟩

theorem mem_keys_iff (edges : List Edge) (u : String) :
    u ∈ (edgeArrayToAdjacencyList edges).map Prod.fst ↔
      ∃ e ∈ edges, e.src_node_id = u := by
  suffices h : ∀ (es : List Edge) (acc : List (String × List String)),
      u ∈ (es.foldl (fun a e => addEdge a e.src_node_id e.trg_node_id) acc).map Prod.fst ↔
        u ∈ acc.map Prod.fst ∨ ∃ e ∈ es, e.src_node_id = u by
    have := h edges []
    simpa [edgeArrayToAdjacencyList] using this
  intro es
  induction es with
  | nil => simp
  | cons e rest ih =>
      intro acc
      simp only [List.foldl_cons, ih, keys_addEdge]
      by_cases hm : e.src_node_id ∈ acc.map Prod.fst
      · rw [if_pos hm]
        constructor
        · rintro (hv | ⟨e', he', hu⟩)
          · exact Or.inl hv
          · exact Or.inr ⟨e', List.mem_cons_of_mem _ he', hu⟩
        · rintro (hv | ⟨e', he', hu⟩)
          · exact Or.inl hv
          · rcases List.mem_cons.mp he' with he' | he'
            · subst he'
              exact Or.inl (hu ▸ hm)
            · exact Or.inr ⟨e', he', hu⟩
      · rw [if_neg hm]
        constructor
        · rintro (hv | ⟨e', he', hu⟩)
          · rcases List.mem_append.mp hv with hv | hv
            · exact Or.inl hv
            · rw [List.mem_singleton] at hv
              exact Or.inr ⟨e, List.mem_cons_self _ _, hv.symm⟩
          · exact Or.inr ⟨e', List.mem_cons_of_mem _ he', hu⟩
        · rintro (hv | ⟨e', he', hu⟩)
          · exact Or.inl (List.mem_append.mpr (Or.inl hv))
          · rcases List.mem_cons.mp he' with he' | he'
            · subst he'
              exact Or.inl (List.mem_append.mpr (Or.inr (by
                rw [List.mem_singleton]; exact hu.symm)))
            · exact Or.inr ⟨e', he', hu⟩

theorem mem_targets_iff (edges : List Edge) (v : String) :
    v ∈ ((edgeArrayToAdjacencyList edges).map Prod.snd).flatten ↔
      ∃ e ∈ edges, e.trg_node_id = v := by
  suffices h : ∀ (es : List Edge) (acc : List (String × List String)),
      v ∈ ((es.foldl (fun a e => addEdge a e.src_node_id e.trg_node_id) acc).map
          Prod.snd).flatten ↔
        v ∈ (acc.map Prod.snd).flatten ∨ ∃ e ∈ es, e.trg_node_id = v by
    have := h edges []
    simpa [edgeArrayToAdjacencyList] using this
  intro es
  induction es with
  | nil => simp
  | cons e rest ih =>
      intro acc
      simp only [List.foldl_cons, ih, targets_addEdge]
      constructor
      · rintro ((hv | hv) | hv)
        · exact Or.inl hv
        · exact Or.inr ⟨e, List.mem_cons_self _ _, hv.symm⟩
        · obtain ⟨e', he', hv⟩ := hv
          exact Or.inr ⟨e', List.mem_cons_of_mem _ he', hv⟩
      · rintro (hv | ⟨e', he', hv⟩)
        · exact Or.inl (Or.inl hv)
        · rcases List.mem_cons.mp he' with he' | he'
          · subst he'
            exact Or.inl (Or.inr hv.symm)
          · exact Or.inr ⟨e', he', hv⟩

theorem adjKeysNodup (edges : List Edge) :
    ((edgeArrayToAdjacencyList edges).map Prod.fst).Nodup := by
  suffices h : ∀ (es : List Edge) (acc : List (String × List String)),
      (acc.map Prod.fst).Nodup →
      ((es.foldl (fun a e => addEdge a e.src_node_id e.trg_node_id) acc).map
        Prod.fst).Nodup by
    exact h edges [] (by simp)
  intro es
  induction es with
  | nil => intro acc h; simpa using h
  | cons e rest ih =>
      intro acc h
      exact ih _ (keysNodup_addEdge _ _ _ h)

theorem adjValsNonempty (edges : List Edge) :
    ∀ p ∈ edgeArrayToAdjacencyList edges, p.2 ≠ [] := by
  suffices h : ∀ (es : List Edge) (acc : List (String × List String)),
      (∀ p ∈ acc, p.2 ≠ []) →
      ∀ p ∈ es.foldl (fun a e => addEdge a e.src_node_id e.trg_node_id) acc, p.2 ≠ [] by
    exact h edges [] (by simp)
  intro es
  induction es with
  | nil => intro acc h; simpa using h
  | cons e rest ih =>
      intro acc h
      exact ih _ (valsNonempty_addEdge _ _ _ h)

theorem lookupAdj_eq_nil_of_not_mem (a : List (String × List String)) (n : String)
    (h : n ∉ a.map Prod.fst) : lookupAdj a n = [] := by
  induction a with
  | nil => simp [lookupAdj]
  | cons p rest ih =>
      obtain ⟨s, ds⟩ := p
      have h1 : s ≠ n := by
        intro hc
        exact h (by simp [hc])
      have h2 : n ∉ rest.map Prod.fst := by
        intro hc
        exact h (by simp [hc])
      simp [lookupAdj, h1, ih h2]

theorem lookupAdj_ne_nil_of_mem (a : List (String × List String)) (n : String)
    (hv : ∀ p ∈ a, p.2 ≠ []) (h : n ∈ a.map Prod.fst) : lookupAdj a n ≠ [] := by
  induction a with
  | nil => simp at h
  | cons p rest ih =>
      obtain ⟨s, ds⟩ := p
      rw [List.map_cons] at h
      rcases List.mem_cons.mp h with h | h
      · subst h
        simp only [lookupAdj, if_pos rfl]
        exact hv (n, ds) (List.mem_cons_self _ _)
      · by_cases hs : s = n
        · simp only [lookupAdj, if_pos hs]
          exact hv (s, ds) (List.mem_cons_self _ _)
        · simp only [lookupAdj, if_neg hs]
          exact ih (fun q hq => hv q (List.mem_cons_of_mem _ hq)) h

theorem mem_lookupAdj_mem_targets (a : List (String × List String)) (u v : String)
    (h : v ∈ lookupAdj a u) : v ∈ (a.map Prod.snd).flatten := by
  induction a with
  | nil => simp [lookupAdj] at h
  | cons p rest ih =>
      obtain ⟨s, ds⟩ := p
      by_cases hs : s = u
      · simp [lookupAdj, hs] at h
        simp
        exact Or.inl h
      · simp [lookupAdj, hs] at h
        simp
        exact Or.inr (by simpa using ih h)

theorem mem_keys_of_mem_lookupAdj (a : List (String × List String)) (u v : String)
    (h : v ∈ lookupAdj a u) : u ∈ a.map Prod.fst := by
  by_contra hc
  rw [lookupAdj_eq_nil_of_not_mem a u hc] at h
  simp at h

/-! ### In-degree counting -/

/-- Total number of occurrences of `v` as a target in the adjacency list:
the value `in_degree[v]` holds after the initial counting loop. -/
def targetCount (adj : List (String × List String)) (v : String) : Nat :=
  (adj.map (fun p => p.2.count v)).sum

/-- Total number of decrements applied to `v` after popping the nodes of
`L` (each pop decrements `v` once per occurrence in the popped node's
adjacency). -/
def decSum (adj : List (String × List String)) (L : List String) (v : String) : Nat :=
  (L.map (fun n => (lookupAdj adj n).count v)).sum

theorem bumpTargets_eq (ds : List String) :
    ∀ (deg : String → Int) (n : String),
      bumpTargets deg ds n = deg n + (ds.count n : Int) := by
  induction ds with
  | nil => intro deg n; simp [bumpTargets]
  | cons d rest ih =>
      intro deg n
      rw [bumpTargets, ih]
      by_cases h : n = d
      · subst h
        simp [List.count_cons]
        omega
      · have hd : ¬ (d = n) := fun hc => h hc.symm
        simp [List.count_cons, h, hd]

theorem initInDegree_eq (adj : List (String × List String)) (v : String) :
    initInDegree adj v = (targetCount adj v : Int) := by
  suffices h : ∀ (a : List (String × List String)) (dg : String → Int),
      (a.foldl (fun dg p => bumpTargets dg p.2) dg) v = dg v + (targetCount a v : Int) by
    have := h adj (fun _ => 0)
    simpa [initInDegree] using this
  intro a
  induction a with
  | nil => intro dg; simp [targetCount]
  | cons p rest ih =>
      intro dg
      rw [List.foldl_cons, ih, bumpTargets_eq]
      simp [targetCount]
      omega

theorem decSum_nil (adj : List (String × List String)) (v : String) :
    decSum adj [] v = 0 := rfl

theorem decSum_append (adj : List (String × List String)) (L1 L2 : List String)
    (v : String) : decSum adj (L1 ++ L2) v = decSum adj L1 v + decSum adj L2 v := by
  simp [decSum]

theorem decSum_cons (adj : List (String × List String)) (n : String) (L : List String)
    (v : String) :
    decSum adj (n :: L) v = (lookupAdj adj n).count v + decSum adj L v := by
  simp [decSum]

/-- Peeling one adjacency entry out of a decrement sum (the key of the
peeled entry must not reappear, which dict construction guarantees). -/
theorem decSum_cons_adj (s : String) (ds : List String)
    (rest : List (String × List String)) (L : List String) (v : String)
    (hs : s ∉ rest.map Prod.fst) :
    decSum ((s, ds) :: rest) L v = L.count s * ds.count v + decSum rest L v := by
  induction L with
  | nil => simp [decSum]
  | cons n L' ih =>
      rw [decSum_cons, decSum_cons, ih]
      by_cases h : s = n
      · subst h
        rw [show lookupAdj ((s, ds) :: rest) s = ds from by simp [lookupAdj]]
        rw [lookupAdj_eq_nil_of_not_mem rest s hs]
        simp [List.count_cons]
        ring
      · rw [show lookupAdj ((s, ds) :: rest) n = lookupAdj rest n from by
          simp [lookupAdj, h]]
        have hn : ¬ (n = s) := fun hc => h hc.symm
        simp [List.count_cons, hn]
        ring

theorem targetCount_cons (s : String) (ds : List String)
    (rest : List (String × List String)) (v : String) :
    targetCount ((s, ds) :: rest) v = ds.count v + targetCount rest v := by
  simp [targetCount]

theorem decSum_empty_adj (L : List String) (v : String) : decSum [] L v = 0 := by
  induction L with
  | nil => rfl
  | cons n L' ih => rw [decSum_cons, ih]; simp [lookupAdj]

/-- With no duplicate pops, at most every adjacency occurrence of `v` is
decremented. -/
theorem decSum_le_targetCount (adj : List (String × List String)) (L : List String)
    (v : String) (hkeys : (adj.map Prod.fst).Nodup) (hL : L.Nodup) :
    decSum adj L v ≤ targetCount adj v := by
  induction adj with
  | nil => simp [decSum_empty_adj, targetCount]
  | cons p rest ih =>
      obtain ⟨s, ds⟩ := p
      rw [List.map_cons, List.nodup_cons] at hkeys
      rw [decSum_cons_adj s ds rest L v hkeys.1, targetCount_cons]
      have hcount : L.count s ≤ 1 := List.nodup_iff_count_le_one.mp hL s
      have h1 : L.count s * ds.count v ≤ ds.count v := by
        calc L.count s * ds.count v ≤ 1 * ds.count v :=
          Nat.mul_le_mul_right _ hcount
        _ = ds.count v := by ring
      exact Nat.add_le_add h1 (ih hkeys.2)

/-- An unpopped source with `v` in its adjacency leaves at least one
decrement unapplied. -/
theorem decSum_lt_targetCount (adj : List (String × List String)) (L : List String)
    (u v : String) (hkeys : (adj.map Prod.fst).Nodup) (hL : L.Nodup)
    (hu : u ∈ adj.map Prod.fst) (huL : u ∉ L) (hv : v ∈ lookupAdj adj u) :
    decSum adj L v < targetCount adj v := by
  induction adj with
  | nil => simp at hu
  | cons p rest ih =>
      obtain ⟨s, ds⟩ := p
      rw [List.map_cons, List.nodup_cons] at hkeys
      rw [decSum_cons_adj s ds rest L v hkeys.1, targetCount_cons]
      rw [List.map_cons] at hu
      rcases List.mem_cons.mp hu with hus | hus
      · subst hus
        have hc0 : L.count u = 0 := List.count_eq_zero.mpr huL
        have hvd : v ∈ ds := by
          rw [show lookupAdj ((u, ds) :: rest) u = ds from by simp [lookupAdj]] at hv
          exact hv
        have h1 : 0 < ds.count v := List.count_pos_iff.mpr hvd
        have h2 : decSum rest L v ≤ targetCount rest v :=
          decSum_le_targetCount rest L v hkeys.2 hL
        rw [hc0, Nat.zero_mul]
        omega
      · have hsu : s ≠ u := fun hc => hkeys.1 (hc ▸ hus)
        have hv' : v ∈ lookupAdj rest u := by
          rw [show lookupAdj ((s, ds) :: rest) u = lookupAdj rest u from by
            simp [lookupAdj, hsu]] at hv
          exact hv
        have := ih hkeys.2 hus hv'
        have hcount : L.count s ≤ 1 := List.nodup_iff_count_le_one.mp hL s
        have h1 : L.count s * ds.count v ≤ ds.count v := by
          calc L.count s * ds.count v ≤ 1 * ds.count v :=
            Nat.mul_le_mul_right _ hcount
          _ = ds.count v := by ring
        omega

/-- When every adjacency key was popped exactly once, all decrements were
applied. -/
theorem decSum_eq_targetCount (adj : List (String × List String)) (L : List String)
    (v : String) (hkeys : (adj.map Prod.fst).Nodup) (hL : L.Nodup)
    (hsub : ∀ k ∈ adj.map Prod.fst, k ∈ L) :
    decSum adj L v = targetCount adj v := by
  induction adj with
  | nil => simp [decSum_empty_adj, targetCount]
  | cons p rest ih =>
      obtain ⟨s, ds⟩ := p
      rw [List.map_cons, List.nodup_cons] at hkeys
      rw [decSum_cons_adj s ds rest L v hkeys.1, targetCount_cons]
      have hsL : s ∈ L := hsub s (by simp)
      have hc1 : L.count s = 1 := List.count_eq_one_of_mem hL hsL
      rw [hc1, one_mul, ih hkeys.2 (fun k hk => hsub k (by simp [hk]))]

/-- Converse extraction: a missing decrement names an unpopped source whose
adjacency holds `v`. -/
theorem exists_unpopped_source (adj : List (String × List String)) (L : List String)
    (v : String) (hkeys : (adj.map Prod.fst).Nodup) (hL : L.Nodup)
    (hlt : decSum adj L v < targetCount adj v) :
    ∃ u ∈ adj.map Prod.fst, u ∉ L ∧ v ∈ lookupAdj adj u := by
  induction adj with
  | nil =>
      exfalso
      have : targetCount [] v = 0 := by simp [targetCount]
      omega
  | cons p rest ih =>
      obtain ⟨s, ds⟩ := p
      rw [List.map_cons, List.nodup_cons] at hkeys
      rw [decSum_cons_adj s ds rest L v hkeys.1, targetCount_cons] at hlt
      by_cases hrest : decSum rest L v < targetCount rest v
      · obtain ⟨u, hu, huL, hv⟩ := ih hkeys.2 hrest
        have hsu : s ≠ u := fun hc => hkeys.1 (hc ▸ hu)
        refine ⟨u, by simp [hu], huL, ?_⟩
        rw [show lookupAdj ((s, ds) :: rest) u = lookupAdj rest u from by
          simp [lookupAdj, hsu]]
        exact hv
      · have hge : decSum rest L v = targetCount rest v := by
          have := decSum_le_targetCount rest L v hkeys.2 hL
          omega
        have hhead : L.count s * ds.count v < ds.count v := by omega
        have hc0 : L.count s = 0 := by
          by_contra hc
          have h1 : 1 ≤ L.count s := Nat.one_le_iff_ne_zero.mpr hc
          have := Nat.mul_le_mul_right (ds.count v) h1
          omega
        refine ⟨s, by simp, List.count_eq_zero.mp hc0, ?_⟩
        rw [show lookupAdj ((s, ds) :: rest) s = ds from by simp [lookupAdj]]
        have hpos : 0 < ds.count v := by omega
        exact List.count_pos_iff.mp hpos

/-! ### Position of first occurrence -/

/-- Index of the first occurrence of a name in a list (list length when
absent): "u appears strictly before v" is `idxOf l u < idxOf l v`. -/
def idxOf : List String → String → Nat
  | [], _ => 0
  | x :: rest, a => if x = a then 0 else idxOf rest a + 1

theorem idxOf_append_of_mem (l t : List String) (a : String) (h : a ∈ l) :
    idxOf (l ++ t) a = idxOf l a := by
  induction l with
  | nil => simp at h
  | cons x rest ih =>
      by_cases hx : x = a
      · simp [idxOf, hx]
      · rcases List.mem_cons.mp h with h | h
        · exact absurd h.symm hx
        · simp [idxOf, hx, ih h]

theorem idxOf_append_of_not_mem (l t : List String) (a : String) (h : a ∉ l) :
    idxOf (l ++ t) a = l.length + idxOf t a := by
  induction l with
  | nil => simp [idxOf]
  | cons x rest ih =>
      have hx : x ≠ a := fun hc => h (by simp [hc])
      have h' : a ∉ rest := fun hc => h (by simp [hc])
      simp [idxOf, hx, ih h']
      omega

theorem idxOf_lt_length (l : List String) (a : String) (h : a ∈ l) :
    idxOf l a < l.length := by
  induction l with
  | nil => simp at h
  | cons x rest ih =>
      by_cases hx : x = a
      · simp [idxOf, hx]
      · rcases List.mem_cons.mp h with h | h
        · exact absurd h.symm hx
        · simp [idxOf, hx]
          exact ih h

/-! ### The Kahn loop invariant -/

/-- Invariant at the head of the `while queue` loop. -/
structure KInv (adj : List (String × List String)) (queue sorted : List String)
    (deg : String → Int) : Prop where
  nodup : (sorted ++ queue).Nodup
  subAll : ∀ x ∈ sorted ++ queue, x ∈ allNodesList adj
  degEq : ∀ v, deg v = (targetCount adj v : Int) - (decSum adj sorted v : Int)
  degLe : ∀ x ∈ sorted ++ queue, deg x ≤ 0
  zeroIn : ∀ v ∈ allNodesList adj, deg v = 0 → v ∈ sorted ++ queue
  edgeOrd : ∀ u v, v ∈ lookupAdj adj u →
      (v ∈ queue → u ∈ sorted) ∧
      (v ∈ sorted → u ∈ sorted ∧ idxOf sorted u < idxOf sorted v)

/-- Invariant during the inner `for neighbor in neighbours` loop, with the
popped node already appended to the emitted list and `done` the processed
prefix of its adjacency. -/
structure PInv (adj : List (String × List String)) (node : String)
    (sorted done queue : List String) (deg : String → Int) : Prop where
  nodup : ((sorted ++ [node]) ++ queue).Nodup
  subAll : ∀ x ∈ (sorted ++ [node]) ++ queue, x ∈ allNodesList adj
  degEq : ∀ v, deg v = (targetCount adj v : Int) - (decSum adj sorted v : Int)
      - (done.count v : Int)
  degLe : ∀ x ∈ (sorted ++ [node]) ++ queue, deg x ≤ 0
  zeroIn : ∀ v ∈ allNodesList adj, deg v = 0 → v ∈ (sorted ++ [node]) ++ queue
  edgeOrd : ∀ u v, v ∈ lookupAdj adj u →
      (v ∈ queue → u ∈ sorted ++ [node]) ∧
      (v ∈ sorted ++ [node] → u ∈ sorted ++ [node] ∧
        idxOf (sorted ++ [node]) u < idxOf (sorted ++ [node]) v)

theorem v_mem_allNodes_of_lookup (adj : List (String × List String)) (u v : String)
    (h : v ∈ lookupAdj adj u) : v ∈ allNodesList adj := by
  unfold allNodesList
  exact List.mem_append.mpr (Or.inr (mem_lookupAdj_mem_targets adj u v h))

theorem targetCount_pos_of_lookup (adj : List (String × List String)) (u v : String)
    (h : v ∈ lookupAdj adj u) : 0 < targetCount adj v := by
  induction adj with
  | nil => simp [lookupAdj] at h
  | cons p rest ih =>
      obtain ⟨s, ds⟩ := p
      rw [targetCount_cons]
      by_cases hs : s = u
      · have hd : v ∈ ds := by simpa [lookupAdj, hs] using h
        have := List.count_pos_iff.mpr hd
        omega
      · have h' : v ∈ lookupAdj rest u := by simpa [lookupAdj, hs] using h
        have := ih h'
        omega

theorem count_one_elem (d w : String) : ([d] : List String).count w = if w = d then 1 else 0 := by
  by_cases h : w = d <;> simp [h]

/-- The inner decrement loop preserves the phase invariant. -/
theorem processNeighbors_inv (adj : List (String × List String)) (node : String)
    (sorted : List String) (hkeys : (adj.map Prod.fst).Nodup) :
    ∀ (rem done queue : List String) (deg : String → Int),
      lookupAdj adj node = done ++ rem →
      PInv adj node sorted done queue deg →
      PInv adj node sorted (done ++ rem) (processNeighbors rem deg queue).2
        (processNeighbors rem deg queue).1 := by
  intro rem
  induction rem with
  | nil =>
      intro done queue deg _ hinv
      simpa [processNeighbors] using hinv
  | cons d rem' ih =>
      intro done queue deg hns hinv
      have hdlook : d ∈ lookupAdj adj node := by
        rw [hns]
        exact List.mem_append.mpr (Or.inr (List.mem_cons_self _ _))
      set deg2 : String → Int := fun n => if n = d then deg n - 1 else deg n with hdeg2
      have degEq2 : ∀ w, deg2 w = (targetCount adj w : Int) - (decSum adj sorted w : Int)
          - ((done ++ [d]).count w : Int) := by
        intro w
        have hbase := hinv.degEq w
        have hcnt : (done ++ [d]).count w = done.count w + if w = d then 1 else 0 := by
          rw [List.count_append, count_one_elem]
        by_cases hw : w = d
        · have h2 : deg2 w = deg w - 1 := by simp [hdeg2, hw]
          rw [h2, hcnt, if_pos hw]
          omega
        · have h2 : deg2 w = deg w := by simp [hdeg2, hw]
          rw [h2, hcnt, if_neg hw]
          omega
      have hstep : PInv adj node sorted (done ++ [d])
          (if deg2 d = 0 then queue ++ [d] else queue) deg2 := by
        by_cases hz : deg2 d = 0
        · -- d crosses zero and is enqueued
          have hd1 : deg d = 1 := by
            have : deg2 d = deg d - 1 := by simp [hdeg2]
            omega
          have hdnot : d ∉ (sorted ++ [node]) ++ queue := by
            intro hc
            have := hinv.degLe d hc
            omega
          refine ⟨?_, ?_, degEq2, ?_, ?_, ?_⟩
          · rw [if_pos hz]
            have : (sorted ++ [node]) ++ (queue ++ [d]) =
                (((sorted ++ [node]) ++ queue) ++ [d]) := by
              simp
            rw [this, List.nodup_append]
            refine ⟨hinv.nodup, List.nodup_singleton d, ?_⟩
            intro x hx hxs
            rw [List.mem_singleton] at hxs
            subst hxs
            exact hdnot hx
          · rw [if_pos hz]
            intro x hx
            rcases List.mem_append.mp hx with hx | hx
            · exact hinv.subAll x (List.mem_append.mpr (Or.inl hx))
            · rcases List.mem_append.mp hx with hx | hx
              · exact hinv.subAll x (List.mem_append.mpr (Or.inr hx))
              · rw [List.mem_singleton] at hx
                subst hx
                exact v_mem_allNodes_of_lookup adj node x hdlook
          · rw [if_pos hz]
            intro x hx
            by_cases hxd : x = d
            · subst hxd
              omega
            · have hx' : x ∈ (sorted ++ [node]) ++ queue := by
                rcases List.mem_append.mp hx with hx | hx
                · exact List.mem_append.mpr (Or.inl hx)
                · rcases List.mem_append.mp hx with hx | hx
                  · exact List.mem_append.mpr (Or.inr hx)
                  · rw [List.mem_singleton] at hx
                    exact absurd hx hxd
              have := hinv.degLe x hx'
              simp only [hdeg2, if_neg hxd]
              omega
          · rw [if_pos hz]
            intro v hvAll hv0
            by_cases hvd : v = d
            · subst hvd
              exact List.mem_append.mpr (Or.inr (List.mem_append.mpr (Or.inr (by simp))))
            · have : deg v = 0 := by
                have : deg2 v = deg v := by simp [hdeg2, hvd]
                omega
              have := hinv.zeroIn v hvAll this
              rcases List.mem_append.mp this with hm | hm
              · exact List.mem_append.mpr (Or.inl hm)
              · exact List.mem_append.mpr (Or.inr (List.mem_append.mpr (Or.inl hm)))
          · rw [if_pos hz]
            intro u v hlook
            refine ⟨?_, (hinv.edgeOrd u v hlook).2⟩
            intro hvq
            rcases List.mem_append.mp hvq with hvq | hvq
            · exact (hinv.edgeOrd u v hlook).1 hvq
            · rw [List.mem_singleton] at hvq
              subst hvq
              -- the counting argument: all of v's sources are already emitted
              by_contra hu
              have hukeys : u ∈ adj.map Prod.fst := mem_keys_of_mem_lookupAdj adj u v hlook
              have hnodup' : (sorted ++ [node]).Nodup :=
                (List.nodup_append.mp hinv.nodup).1
              have hlt : decSum adj (sorted ++ [node]) v < targetCount adj v :=
                decSum_lt_targetCount adj (sorted ++ [node]) u v hkeys hnodup' hukeys hu hlook
              have hdec : decSum adj (sorted ++ [node]) v =
                  decSum adj sorted v + (lookupAdj adj node).count v := by
                simp [decSum_append, decSum_cons, decSum_nil]
              have hc2 : (done ++ [v]).count v ≤ (lookupAdj adj node).count v := by
                rw [hns, List.count_append, List.count_append]
                have : (v :: rem').count v = ([v] : List String).count v + rem'.count v := by
                  simp [List.count_cons]
                  omega
                omega
              have := degEq2 v
              rw [hz] at this
              omega
        · -- no enqueue
          have hdleq : ∀ x, deg2 x ≤ deg x := by
            intro x
            by_cases hx : x = d <;> simp [hdeg2, hx]
          refine ⟨?_, ?_, degEq2, ?_, ?_, ?_⟩
          · rw [if_neg hz]
            exact hinv.nodup
          · rw [if_neg hz]
            exact hinv.subAll
          · rw [if_neg hz]
            intro x hx
            exact le_trans (hdleq x) (hinv.degLe x hx)
          · rw [if_neg hz]
            intro v hvAll hv0
            by_cases hvd : v = d
            · subst hvd
              exact absurd hv0 hz
            · have : deg v = 0 := by
                have : deg2 v = deg v := by simp [hdeg2, hvd]
                omega
              exact hinv.zeroIn v hvAll this
          · rw [if_neg hz]
            exact hinv.edgeOrd
      have hns' : lookupAdj adj node = (done ++ [d]) ++ rem' := by
        rw [hns]
        simp
      have hgoal := ih (done ++ [d]) (if deg2 d = 0 then queue ++ [d] else queue) deg2 hns' hstep
      have hrw : (done ++ [d]) ++ rem' = done ++ (d :: rem') := by simp
      rw [hrw] at hgoal
      rw [hdeg2] at hgoal
      exact hgoal

/-- Popping the queue head preserves the loop invariant. -/
theorem kahn_step_inv (adj : List (String × List String)) (node : String)
    (rest sorted : List String) (deg : String → Int)
    (hkeys : (adj.map Prod.fst).Nodup)
    (hinv : KInv adj (node :: rest) sorted deg) :
    KInv adj (processNeighbors (lookupAdj adj node) deg rest).2 (sorted ++ [node])
      (processNeighbors (lookupAdj adj node) deg rest).1 := by
  have hsplit : sorted ++ node :: rest = (sorted ++ [node]) ++ rest := by simp
  have hnode_mem : node ∈ sorted ++ node :: rest := by
    exact List.mem_append.mpr (Or.inr (List.mem_cons_self _ _))
  have hnode_not_sorted : node ∉ sorted := by
    have hnd := hinv.nodup
    rw [hsplit, List.nodup_append] at hnd
    have hnd2 := (List.nodup_append.mp hnd.1).2.2
    intro hc
    exact hnd2 hc (by simp)
  have hinit : PInv adj node sorted [] rest deg := by
    refine ⟨?_, ?_, ?_, ?_, ?_, ?_⟩
    · rw [← hsplit]; exact hinv.nodup
    · intro x hx; exact hinv.subAll x (by rw [hsplit]; exact hx)
    · intro v
      have := hinv.degEq v
      simpa using this
    · intro x hx; exact hinv.degLe x (by rw [hsplit]; exact hx)
    · intro v hvAll hv0
      have := hinv.zeroIn v hvAll hv0
      rw [hsplit] at this
      exact this
    · intro u v hlook
      constructor
      · intro hvq
        have := (hinv.edgeOrd u v hlook).1 (by
          exact List.mem_cons_of_mem _ hvq)
        exact List.mem_append.mpr (Or.inl this)
      · intro hvs
        rcases List.mem_append.mp hvs with hvs | hvs
        · obtain ⟨hu, hidx⟩ := (hinv.edgeOrd u v hlook).2 hvs
          refine ⟨List.mem_append.mpr (Or.inl hu), ?_⟩
          rw [idxOf_append_of_mem _ _ _ hu, idxOf_append_of_mem _ _ _ hvs]
          exact hidx
        · rw [List.mem_singleton] at hvs
          subst hvs
          have hu := (hinv.edgeOrd u v hlook).1 (List.mem_cons_self _ _)
          refine ⟨List.mem_append.mpr (Or.inl hu), ?_⟩
          rw [idxOf_append_of_mem _ _ _ hu,
            idxOf_append_of_not_mem _ _ _ hnode_not_sorted]
          have h1 : idxOf sorted u < sorted.length := idxOf_lt_length _ _ hu
          have h2 : idxOf [v] v = 0 := by simp [idxOf]
          omega
  have := processNeighbors_inv adj node sorted hkeys (lookupAdj adj node) [] rest deg
    (by simp) hinit
  simp only [List.nil_append] at this
  refine ⟨this.nodup, this.subAll, ?_, this.degLe, this.zeroIn, this.edgeOrd⟩
  intro v
  have := this.degEq v
  have hdec : decSum adj (sorted ++ [node]) v =
      decSum adj sorted v + (lookupAdj adj node).count v := by
    simp [decSum_append, decSum_cons, decSum_nil]
  rw [hdec]
  push_cast
  omega

/-- The initial state satisfies the loop invariant. -/
theorem KInv_init (adj : List (String × List String))
    (hkeys : (adj.map Prod.fst).Nodup) :
    KInv adj (seedQueue adj) [] (initInDegree adj) := by
  refine ⟨?_, ?_, ?_, ?_, ?_, ?_⟩
  · simp only [List.nil_append]
    exact List.Nodup.filter _ hkeys
  · intro x hx
    simp only [List.nil_append] at hx
    have := List.mem_of_mem_filter hx
    exact List.mem_append.mpr (Or.inl this)
  · intro v
    rw [initInDegree_eq]
    simp [decSum_nil]
  · intro x hx
    simp only [List.nil_append, seedQueue] at hx
    have := List.of_mem_filter hx
    have h0 : initInDegree adj x = 0 := by
      simpa using this
    omega
  · intro v hvAll hv0
    simp only [List.nil_append, seedQueue]
    rcases List.mem_append.mp hvAll with hv | hv
    · exact List.mem_filter.mpr ⟨hv, by simpa using hv0⟩
    · exfalso
      obtain ⟨ds, hds, hvds⟩ := List.mem_flatten.mp hv
      obtain ⟨p, hp, hpds⟩ := List.mem_map.mp hds
      have hpos : 0 < targetCount adj v := by
        have h1 : 0 < ds.count v := List.count_pos_iff.mpr hvds
        have h2 : ds.count v ∈ adj.map (fun q => q.2.count v) := by
          exact List.mem_map.mpr ⟨p, hp, by rw [hpds]⟩
        have h3 : ds.count v ≤ targetCount adj v := List.single_le_sum (by simp) _ h2
        omega
      rw [initInDegree_eq] at hv0
      omega
  · intro u v hlook
    constructor
    · intro hvq
      exfalso
      have := List.of_mem_filter hvq
      have h0 : initInDegree adj v = 0 := by simpa using this
      rw [initInDegree_eq] at h0
      have hpos := targetCount_pos_of_lookup adj u v hlook
      omega
    · intro hvs
      simp at hvs

theorem nodup_subset_length (l t : List String) (hn : l.Nodup)
    (hsub : ∀ x ∈ l, x ∈ t) : l.length ≤ t.length := by
  have h1 : l.toFinset.card = l.length := List.toFinset_card_of_nodup hn
  have h2 : l.toFinset ⊆ t.toFinset := by
    intro x hx
    rw [List.mem_toFinset] at hx ⊢
    exact hsub x hx
  have h3 := Finset.card_le_card h2
  have h4 := t.toFinset_card_le
  omega

/-- Whenever the loop returns, the final state satisfies the invariant with
an empty queue, and the counter counts the emitted terminal nodes. -/
theorem kahnLoop_spec (adj : List (String × List String))
    (hkeys : (adj.map Prod.fst).Nodup) :
    ∀ (fuel : Nat) (queue sorted : List String) (deg : String → Int) (cntr : Nat)
      (out : List String) (outc : Nat),
      KInv adj queue sorted deg →
      cntr = sorted.countP (fun n => (lookupAdj adj n).isEmpty) →
      kahnLoop adj fuel queue deg sorted cntr = some (out, outc) →
      (∃ degF, KInv adj [] out degF) ∧
        outc = out.countP (fun n => (lookupAdj adj n).isEmpty) := by
  intro fuel
  induction fuel with
  | zero =>
      intro queue sorted deg cntr out outc _ _ h3
      simp [kahnLoop] at h3
  | succ f ih =>
      intro queue sorted deg cntr out outc h1 h2 h3
      cases queue with
      | nil =>
          simp only [kahnLoop, Option.some.injEq, Prod.mk.injEq] at h3
          obtain ⟨h31, h32⟩ := h3
          subst h31
          subst h32
          exact ⟨⟨deg, h1⟩, h2⟩
      | cons node rest =>
          simp only [kahnLoop] at h3
          have hstep := kahn_step_inv adj node rest sorted deg hkeys h1
          have hcntr : (if (lookupAdj adj node).isEmpty then cntr + 1 else cntr) =
              (sorted ++ [node]).countP (fun n => (lookupAdj adj n).isEmpty) := by
            rw [List.countP_append, List.countP_cons]
            simp only [List.countP_nil]
            by_cases hne : (lookupAdj adj node).isEmpty
            · rw [if_pos hne, if_pos hne, h2]
            · rw [if_neg hne, if_neg hne, h2]
              omega
          exact ih _ _ _ _ _ _ hstep hcntr h3

/-- With fuel exceeding the number of nodes still emittable, the loop
cannot run out: each iteration emits one more distinct node of
`allNodesList`. -/
theorem kahnLoop_total (adj : List (String × List String))
    (hkeys : (adj.map Prod.fst).Nodup) :
    ∀ (fuel : Nat) (queue sorted : List String) (deg : String → Int) (cntr : Nat),
      KInv adj queue sorted deg →
      (allNodesList adj).length + 1 ≤ fuel + sorted.length →
      ∃ out, kahnLoop adj fuel queue deg sorted cntr = some out := by
  intro fuel
  induction fuel with
  | zero =>
      intro queue sorted deg cntr h1 h2
      exfalso
      have hnd : sorted.Nodup := (List.nodup_append.mp h1.nodup).1
      have hsub : ∀ x ∈ sorted, x ∈ allNodesList adj := fun x hx =>
        h1.subAll x (List.mem_append.mpr (Or.inl hx))
      have := nodup_subset_length sorted (allNodesList adj) hnd hsub
      omega
  | succ f ih =>
      intro queue sorted deg cntr h1 h2
      cases queue with
      | nil => exact ⟨(sorted, cntr), by simp [kahnLoop]⟩
      | cons node rest =>
          have hstep := kahn_step_inv adj node rest sorted deg hkeys h1
          have h2' : (allNodesList adj).length + 1 ≤ f + (sorted ++ [node]).length := by
            simp only [List.length_append, List.length_singleton]
            omega
          obtain ⟨out, hout⟩ := ih _ _ _
            (if (lookupAdj adj node).isEmpty then cntr + 1 else cntr) hstep h2'
          exact ⟨out, by simp only [kahnLoop]; exact hout⟩

theorem isEmpty_false_iff_key (adj : List (String × List String))
    (hvals : ∀ p ∈ adj, p.2 ≠ []) (x : String) :
    (lookupAdj adj x).isEmpty = false ↔ x ∈ adj.map Prod.fst := by
  constructor
  · intro h
    by_contra hc
    rw [lookupAdj_eq_nil_of_not_mem adj x hc] at h
    simp at h
  · intro h
    have := lookupAdj_ne_nil_of_mem adj x hvals h
    cases hl : lookupAdj adj x with
    | nil => exact absurd hl this
    | cons a l => simp

/-- What success of `topological_sort` guarantees: a duplicate-free order
containing every adjacency key and, for every edge, the source strictly
before the target. -/
theorem topologicalSort_ok_spec (edges : List Edge) (order : List String)
    (h : topologicalSort edges = .ok order) :
    order.Nodup ∧
    (∀ k ∈ (edgeArrayToAdjacencyList edges).map Prod.fst, k ∈ order) ∧
    (∀ x ∈ order, x ∈ allNodesList (edgeArrayToAdjacencyList edges)) ∧
    (∀ u v, EdgeRel edges u v →
      u ∈ order ∧ v ∈ order ∧ idxOf order u < idxOf order v) := by
  have hkeys := adjKeysNodup edges
  have hvals := adjValsNonempty edges
  set adj := edgeArrayToAdjacencyList edges with hadj
  rw [topologicalSort] at h
  rw [← hadj] at h
  rcases hk : kahnLoop adj (allNodesList adj).length.succ (seedQueue adj)
      (initInDegree adj) [] 0 with - | ⟨sorted, cntr⟩
  · rw [hk] at h
    simp at h
  · rw [hk] at h
    dsimp only at h
    by_cases hcond : sorted.length = adj.length + cntr
    · rw [if_pos hcond] at h
      have hso : sorted = order := by
        simpa using h
      subst hso
      obtain ⟨⟨degF, hfin⟩, hcnt⟩ := kahnLoop_spec adj hkeys _ _ _ _ _ _ _
        (KInv_init adj hkeys) (by simp) hk
      have hnodup : sorted.Nodup := by
        have := hfin.nodup
        simpa using this
      have hsubAll : ∀ x ∈ sorted, x ∈ allNodesList adj := by
        intro x hx
        exact hfin.subAll x (by simpa using hx)
      -- counting: every adjacency key was emitted
      have hsplit := List.length_eq_countP_add_countP
        (fun n => (lookupAdj adj n).isEmpty) sorted
      have hcongr : sorted.countP
          (fun a => decide ¬ ((lookupAdj adj a).isEmpty = true)) =
          sorted.countP (fun n => decide (n ∈ adj.map Prod.fst)) := by
        apply List.countP_congr
        intro x _
        simp only [decide_eq_true_eq]
        rw [Bool.not_eq_true, isEmpty_false_iff_key adj hvals x]
      have hkeycount : sorted.countP (fun n => decide (n ∈ adj.map Prod.fst)) =
          adj.length := by
        omega
      have hkeysub : ∀ k ∈ adj.map Prod.fst, k ∈ sorted := by
        intro k hkm
        have hF := List.countP_eq_length_filter
          (fun n => decide (n ∈ adj.map Prod.fst)) sorted
        have hFnodup : (sorted.filter
            (fun n => decide (n ∈ adj.map Prod.fst))).Nodup := hnodup.filter _
        have hFsub : ∀ x ∈ sorted.filter (fun n => decide (n ∈ adj.map Prod.fst)),
            x ∈ adj.map Prod.fst := by
          intro x hx
          have := List.of_mem_filter hx
          simpa using this
        have hFlen : (sorted.filter
            (fun n => decide (n ∈ adj.map Prod.fst))).length = adj.length := by
          omega
        have hcard1 : (sorted.filter
            (fun n => decide (n ∈ adj.map Prod.fst))).toFinset.card = adj.length :=
          by rw [List.toFinset_card_of_nodup hFnodup, hFlen]
        have hcard2 : (adj.map Prod.fst).toFinset.card = adj.length := by
          rw [List.toFinset_card_of_nodup hkeys, List.length_map]
        have hsubF : (sorted.filter
            (fun n => decide (n ∈ adj.map Prod.fst))).toFinset ⊆
            (adj.map Prod.fst).toFinset := by
          intro x hx
          rw [List.mem_toFinset] at hx ⊢
          exact hFsub x hx
        have heq := Finset.eq_of_subset_of_card_le hsubF (by omega)
        have : k ∈ (sorted.filter (fun n => decide (n ∈ adj.map Prod.fst))).toFinset := by
          rw [heq, List.mem_toFinset]
          exact hkm
        rw [List.mem_toFinset] at this
        exact List.mem_of_mem_filter this
      refine ⟨hnodup, hkeysub, hsubAll, ?_⟩
      intro u v hrel
      obtain ⟨e, he, hsrc, htrg⟩ := hrel
      have hukey : u ∈ adj.map Prod.fst := by
        rw [hadj, mem_keys_iff]
        exact ⟨e, he, hsrc⟩
      have huord : u ∈ sorted := hkeysub u hukey
      have hvlook : v ∈ lookupAdj adj u := by
        rw [hadj, mem_lookupAdj_iff]
        exact ⟨e, he, hsrc, htrg⟩
      have hv0 : degF v = 0 := by
        have h1 := hfin.degEq v
        have h2 := decSum_eq_targetCount adj sorted v hkeys hnodup hkeysub
        omega
      have hvord : v ∈ sorted := by
        have := hfin.zeroIn v (v_mem_allNodes_of_lookup adj u v hvlook) hv0
        simpa using this
      obtain ⟨hu2, hidx⟩ := (hfin.edgeOrd u v hvlook).2 hvord
      exact ⟨huord, hvord, hidx⟩
    · rw [if_neg hcond] at h
      simp at h

/-- In a finite set where every element has a predecessor inside the set,
some element lies on a cycle. -/
theorem cycle_of_preds (S : Finset String) (R : String → String → Prop)
    (hne : S.Nonempty) (h : ∀ u ∈ S, ∃ k, k ∈ S ∧ R k u) :
    ∃ a, Relation.TransGen R a a := by
  obtain ⟨u0, hu0⟩ := hne
  have hg : ∃ g : String → String, ∀ u ∈ S, g u ∈ S ∧ R (g u) u := by
    refine ⟨fun u => if hu : u ∈ S then (h u hu).choose else u, ?_⟩
    intro u hu
    simp only [dif_pos hu]
    exact (h u hu).choose_spec
  obtain ⟨g, hgspec⟩ := hg
  have hfS : ∀ n : Nat, g^[n] u0 ∈ S := by
    intro n
    induction n with
    | zero => simpa using hu0
    | succ m ih =>
        rw [Function.iterate_succ_apply']
        exact (hgspec _ ih).1
  have hstep : ∀ n : Nat, Relation.TransGen R (g^[n + 1] u0) (g^[n] u0) := by
    intro n
    rw [Function.iterate_succ_apply']
    exact Relation.TransGen.single (hgspec _ (hfS n)).2
  have hchain : ∀ n m : Nat, m < n → Relation.TransGen R (g^[n] u0) (g^[m] u0) := by
    intro n
    induction n with
    | zero => intro m hm; exact absurd hm (Nat.not_lt_zero m)
    | succ k ih =>
        intro m hm
        by_cases hk : m = k
        · subst hk
          exact hstep m
        · have hmk : m < k := by omega
          exact Relation.TransGen.trans (hstep k) (ih m hmk)
  have hlt : S.card < (Finset.univ : Finset (Fin (S.card + 1))).card := by simp
  obtain ⟨i, -, j, -, hij, hfe⟩ :=
    Finset.exists_ne_map_eq_of_card_lt_of_maps_to hlt
      (fun (i : Fin (S.card + 1)) _ => hfS i.val)
  have hvalne : i.val ≠ j.val := fun hc => hij (Fin.ext hc)
  rcases Nat.lt_or_ge i.val j.val with h2 | h2
  · refine ⟨g^[j.val] u0, ?_⟩
    have := hchain j.val i.val h2
    rw [hfe] at this
    exact this
  · have h3 : j.val < i.val := by omega
    refine ⟨g^[i.val] u0, ?_⟩
    have := hchain i.val j.val h3
    rw [← hfe] at this
    exact this

/-- A cycle forbids success: every edge's source precedes its target in a
returned order, so a nonempty path from a node to itself is absurd. -/
theorem cycle_not_ok (edges : List Edge) (order : List String)
    (hok : topologicalSort edges = .ok order) (hc : HasCycle edges) : False := by
  obtain ⟨-, -, -, hord⟩ := topologicalSort_ok_spec edges order hok
  obtain ⟨a, ha⟩ := hc
  have : ∀ x y, Relation.TransGen (EdgeRel edges) x y →
      idxOf order x < idxOf order y := by
    intro x y hxy
    induction hxy with
    | single hr => exact (hord _ _ hr).2.2
    | tail _ hr ih => exact lt_trans ih (hord _ _ hr).2.2
  exact absurd (this a a ha) (lt_irrefl _)

theorem countP_keys_eq (adj : List (String × List String))
    (hkeys : (adj.map Prod.fst).Nodup) (L : List String) (hnodup : L.Nodup)
    (hsub : ∀ k ∈ adj.map Prod.fst, k ∈ L) :
    L.countP (fun n => decide (n ∈ adj.map Prod.fst)) = adj.length := by
  rw [List.countP_eq_length_filter]
  have hFnodup : (L.filter (fun n => decide (n ∈ adj.map Prod.fst))).Nodup :=
    hnodup.filter _
  have hFsub : ∀ x ∈ L.filter (fun n => decide (n ∈ adj.map Prod.fst)),
      x ∈ adj.map Prod.fst := by
    intro x hx
    have := List.of_mem_filter hx
    simpa using this
  have hsubF : ∀ k ∈ adj.map Prod.fst,
      k ∈ L.filter (fun n => decide (n ∈ adj.map Prod.fst)) := by
    intro k hkm
    exact List.mem_filter.mpr ⟨hsub k hkm, by simpa using hkm⟩
  have heq : (L.filter (fun n => decide (n ∈ adj.map Prod.fst))).toFinset =
      (adj.map Prod.fst).toFinset := by
    apply Finset.Subset.antisymm
    · intro x hx
      rw [List.mem_toFinset] at hx ⊢
      exact hFsub x hx
    · intro x hx
      rw [List.mem_toFinset] at hx ⊢
      exact hsubF x hx
  have h1 := List.toFinset_card_of_nodup hFnodup
  have h2 := List.toFinset_card_of_nodup hkeys
  rw [heq] at h1
  have h3 : (adj.map Prod.fst).length = adj.length := List.length_map _ _
  omega

/-- On an acyclic edge list, `topological_sort` succeeds. -/
theorem acyclic_ok (edges : List Edge) (hnc : ¬ HasCycle edges) :
    ∃ o, topologicalSort edges = .ok o := by
  have hkeys := adjKeysNodup edges
  have hvals := adjValsNonempty edges
  set adj := edgeArrayToAdjacencyList edges with hadj
  obtain ⟨⟨outL, outc⟩, hk⟩ := kahnLoop_total adj hkeys
    (allNodesList adj).length.succ (seedQueue adj) [] (initInDegree adj) 0
    (KInv_init adj hkeys) (by omega)
  obtain ⟨⟨degF, hfin⟩, hcnt⟩ := kahnLoop_spec adj hkeys _ _ _ _ _ _ _
    (KInv_init adj hkeys) (by simp) hk
  have hnodup : outL.Nodup := by
    have := hfin.nodup
    simpa using this
  have hkeysub : ∀ k ∈ adj.map Prod.fst, k ∈ outL := by
    by_contra hc
    push_neg at hc
    obtain ⟨k0, hk0m, hk0n⟩ := hc
    have hS : ((adj.map Prod.fst).toFinset \ outL.toFinset).Nonempty := by
      refine ⟨k0, ?_⟩
      rw [Finset.mem_sdiff, List.mem_toFinset, List.mem_toFinset]
      exact ⟨hk0m, hk0n⟩
    have hpred : ∀ u ∈ (adj.map Prod.fst).toFinset \ outL.toFinset,
        ∃ k, k ∈ (adj.map Prod.fst).toFinset \ outL.toFinset ∧
          u ∈ lookupAdj adj k := by
      intro u hu
      rw [Finset.mem_sdiff, List.mem_toFinset, List.mem_toFinset] at hu
      obtain ⟨hukeys, huout⟩ := hu
      have hne0 : degF u ≠ 0 := by
        intro h0
        have := hfin.zeroIn u (List.mem_append.mpr (Or.inl hukeys)) h0
        rw [List.append_nil] at this
        exact huout this
      have hle : decSum adj outL u ≤ targetCount adj u :=
        decSum_le_targetCount adj outL u hkeys hnodup
      have hdeg := hfin.degEq u
      have hlt : decSum adj outL u < targetCount adj u := by omega
      obtain ⟨k, hkkeys, hkout, hulook⟩ :=
        exists_unpopped_source adj outL u hkeys hnodup hlt
      refine ⟨k, ?_, hulook⟩
      rw [Finset.mem_sdiff, List.mem_toFinset, List.mem_toFinset]
      exact ⟨hkkeys, hkout⟩
    obtain ⟨a, ha⟩ := cycle_of_preds _ _ hS hpred
    apply hnc
    refine ⟨a, ?_⟩
    refine Relation.TransGen.mono ?_ ha
    intro x y hxy
    rw [← mem_lookupAdj_iff edges x y, ← hadj]
    exact hxy
  have hcond : outL.length = adj.length + outc := by
    have hsplit := List.length_eq_countP_add_countP
      (fun n => (lookupAdj adj n).isEmpty) outL
    have hcongr : outL.countP
        (fun a => decide ¬ ((lookupAdj adj a).isEmpty = true)) =
        outL.countP (fun n => decide (n ∈ adj.map Prod.fst)) := by
      apply List.countP_congr
      intro x _
      simp only [decide_eq_true_eq]
      rw [Bool.not_eq_true, isEmpty_false_iff_key adj hvals x]
    have hkc := countP_keys_eq adj hkeys outL hnodup hkeysub
    omega
  refine ⟨outL, ?_⟩
  rw [topologicalSort, ← hadj, hk]
  dsimp only
  rw [if_pos hcond]

theorem topologicalSort_cases (edges : List Edge) :
    (∃ o, topologicalSort edges = .ok o) ∨
    topologicalSort edges = .error .notDAGError := by
  rw [topologicalSort]
  rcases hk : kahnLoop (edgeArrayToAdjacencyList edges)
      (allNodesList (edgeArrayToAdjacencyList edges)).length.succ
      (seedQueue (edgeArrayToAdjacencyList edges))
      (initInDegree (edgeArrayToAdjacencyList edges)) [] 0 with - | ⟨sorted, cntr⟩
  · exact Or.inr rfl
  · dsimp only
    by_cases hcond : sorted.length = (edgeArrayToAdjacencyList edges).length + cntr
    · rw [if_pos hcond]
      exact Or.inl ⟨sorted, rfl⟩
    · rw [if_neg hcond]
      exact Or.inr rfl

/-! ## Node, Chain and the executor -/

/-- A registered computational unit: `Node(id, type, fn, fields, outputs,
description)`.  The wrapped callable takes the keyword mapping and returns
the `(payload, error)` pair (an error is modelled by its message). -/
structure Node : Type where
  id : String
  type : String
  fn : List (String × Value) → Value × Option String
  fields : List Var
  outputs : List Var
  description : String

/-- `Node.has_field`. -/
def Node.hasField (n : Node) (field : String) : Bool :=
  n.fields.any (fun x => x.name = field)

/-- The projection loop `for o in self.outputs: o.set_value(get_value_by_keys
(out, o._loc))`, carried out left to right; a raised error (`none` from the
accessor, i.e. a failed `int()` coercion) stops the loop, leaving the
current and later Vars untouched.  Returns the updated Vars and the error. -/
def projectOutputs : List Var → Value → List Var × Option String
  | [], _ => ([], none)
  | o :: rest, out =>
      match getValueByKeys out o.loc with
      | none => (o :: rest, some "ValueError: invalid key")
      | some v =>
          let p := projectOutputs rest out
          (o.setValue v :: p.1, p.2)

/-- `Node.__call__(data, ret_fields)`: validate the input keys, invoke the
callable, then ALWAYS project (the `if not ret_fields: return out, None`
shortcut is commented out in the source), returning
`({o.name: o.value}, None)` and the node with its output Vars mutated; any
raised error is returned as `(traceback_string, error)`. -/
def nodeCall (node : Node) (data : List (String × Value)) (retFields : Bool) :
    (Value × Option String) × Node :=
  if (data.map Prod.fst).all (fun k => node.fields.any (fun f => f.name = k)) then
    match node.fn data with
    | (_, some err) => ((Value.str ("Traceback: " ++ err), some err), node)
    | (out, none) =>
        match projectOutputs node.outputs out with
        | (outs2, some err) =>
            ((Value.str ("Traceback: " ++ err), some err),
             { node with outputs := outs2 })
        | (outs2, none) =>
            ((Value.dict (outs2.foldl
                (fun m o => dictSetK m (Key.str o.name) o.value) []), none),
             { node with outputs := outs2 })
  else
    ((Value.str "Traceback: ValueError: Invalid keys passed to node",
      some "Invalid keys passed to node"), node)

/-- `Chain`: node map (insertion order), edges, cached topological order. -/
structure Chain : Type where
  nodes : List (String × Node)
  edges : List Edge
  topo_order : List String

/-- `Chain.__init__`: build the id-keyed node map, topologically sort the
edges (raising `NotDAGError` on failure), then assert that every id in the
order names a known node (raising on the first missing one). -/
def chainInit (nodes : List Node) (edges : List Edge) : Except ChainError Chain :=
  let nodeMap := nodes.foldl (fun m n => setS m n.id n) []
  match topologicalSort edges with
  | .error e => .error e
  | .ok topo =>
      match topo.find? (fun nid => (lookupS nodeMap nid).isNone) with
      | some nid => .error (.missingNode nid)
      | none => .ok ⟨nodeMap, edges, topo⟩

/-- One IR fetch (`full_ir.get(req_key, None)` followed by the `is None`
check): an absent key and a stored null both raise
`Missing value for <src>/<out>`. -/
def irFetchStep (full_ir : List (String × Value)) (srcId : String)
    (d : List (String × Value)) (c : String × String) :
    Except ChainError (List (String × Value)) :=
  match lookupS full_ir (srcId ++ "/" ++ c.1) with
  | none => .error (.missingValue (srcId ++ "/" ++ c.1))
  | some Value.null => .error (.missingValue (srcId ++ "/" ++ c.1))
  | some v => .ok (setS d c.2 v)

/-- Lines 599-615 of the executor: build the data map for one node from its
incoming edges' IR values, then copy in every initial input whose key the
node declares (shared inputs override edge-fed values; `data` itself is
only read). -/
def buildNodeData (edges : List Edge) (full_ir : List (String × Value))
    (data : List (String × Value)) (nodeId : String) (node : Node) :
    Except ChainError (List (String × Value)) := do
  let incoming := edges.filter (fun e => e.trg_node_id = nodeId)
  let d1 ← incoming.foldlM
    (fun d e => e.connections.foldlM (irFetchStep full_ir e.src_node_id) d) []
  pure (data.foldl
    (fun d kv => if node.hasField kv.1 then setS d kv.1 kv.2 else d) d1)

def keyToString : Key → String
  | .str s => s
  | .int n => toString n

/-- `out.items()` of a successful projection (always a dict there). -/
def valueItems : Value → List (Key × Value)
  | .dict fs => fs
  | _ => []

/-- The `for node_id in self.topo_order` loop of `Chain.__call__`,
threading the IR map, the last output and the (mutated) node map. -/
def runChainAux (edges : List Edge) :
    List String → List (String × Node) → List (String × Value) →
    Option Value → List (String × Value) →
    Except ChainError (Option Value × List (String × Value) × List (String × Node))
  | [], _nodes, full_ir, out, _ => .ok (out, full_ir, _nodes)
  | nodeId :: rest, nodes, full_ir, _, data =>
      match lookupS nodes nodeId with
      | none => .error (.missingNode nodeId)
      | some node =>
          match buildNodeData edges full_ir data nodeId node with
          | .error e => .error e
          | .ok d =>
              match nodeCall node d true with
              | ((_, some err), _) => .error (.nodeError err)
              | ((ret, none), node2) =>
                  let ir2 := (valueItems ret).foldl
                    (fun ir kv => setS ir (nodeId ++ "/" ++ keyToString kv.1) kv.2)
                    full_ir
                  runChainAux edges rest (setS nodes nodeId node2) ir2 (some ret) data

/-- `Chain.__call__(data)`: run the nodes in topological order over an
initially empty IR map; return the last node's projected output and the
full IR map. -/
def runChain (c : Chain) (data : List (String × Value)) :
    Except ChainError (Option Value × List (String × Value)) :=
  match runChainAux c.edges c.topo_order c.nodes [] none data with
  | .error e => .error e
  | .ok (out, ir, _) => .ok (out, ir)

/-! ### Executor support lemmas -/

theorem mem_keys_setS {α : Type} (m : List (String × α)) (k k' : String) (v : α)
    (h : k' ∈ (setS m k v).map Prod.fst) : k' ∈ m.map Prod.fst ∨ k' = k := by
  induction m with
  | nil =>
      simp [setS] at h
      exact Or.inr h
  | cons p rest ih =>
      obtain ⟨k0, v0⟩ := p
      by_cases h0 : k0 = k
      · subst h0
        rw [show setS ((k0, v0) :: rest) k0 v = (k0, v) :: rest from by
          simp [setS], List.map_cons] at h
        rcases List.mem_cons.mp h with h | h
        · exact Or.inr h
        · exact Or.inl (by rw [List.map_cons]; exact List.mem_cons_of_mem _ h)
      · rw [show setS ((k0, v0) :: rest) k v = (k0, v0) :: setS rest k v from by
          simp [setS, h0], List.map_cons] at h
        rcases List.mem_cons.mp h with h | h
        · exact Or.inl (by rw [List.map_cons, h]; exact List.mem_cons_self _ _)
        · rcases ih h with h | h
          · exact Or.inl (by rw [List.map_cons]; exact List.mem_cons_of_mem _ h)
          · exact Or.inr h

theorem mem_keys_ir_fold (nodeId : String) :
    ∀ (items : List (Key × Value)) (ir : List (String × Value)) (key : String),
      key ∈ ((items.foldl
        (fun ir kv => setS ir (nodeId ++ "/" ++ keyToString kv.1) kv.2) ir).map
          Prod.fst) →
      key ∈ ir.map Prod.fst ∨ ∃ s, key = nodeId ++ "/" ++ s := by
  intro items
  induction items with
  | nil => intro ir key h; exact Or.inl h
  | cons kv rest ih =>
      intro ir key h
      rw [List.foldl_cons] at h
      rcases ih _ key h with h | h
      · rcases mem_keys_setS _ _ _ _ h with h | h
        · exact Or.inl h
        · exact Or.inr ⟨keyToString kv.1, h⟩
      · exact Or.inr h

/-- IR keys written by a run all belong to nodes of the processed order. -/
theorem runChainAux_ir_keys (edges : List Edge) :
    ∀ (order : List String) (nodes : List (String × Node))
      (ir : List (String × Value)) (out : Option Value)
      (data : List (String × Value)) (res : Option Value)
      (ir2 : List (String × Value)) (nodes2 : List (String × Node))
      (L : List String),
      (∀ nid ∈ order, nid ∈ L) →
      (∀ key ∈ ir.map Prod.fst, ∃ nid ∈ L, ∃ s, key = nid ++ "/" ++ s) →
      runChainAux edges order nodes ir out data = .ok (res, ir2, nodes2) →
      ∀ key ∈ ir2.map Prod.fst, ∃ nid ∈ L, ∃ s, key = nid ++ "/" ++ s := by
  intro order
  induction order with
  | nil =>
      intro nodes ir out data res ir2 nodes2 L _ hir h
      simp only [runChainAux, Except.ok.injEq, Prod.mk.injEq] at h
      obtain ⟨-, h2, -⟩ := h
      subst h2
      exact hir
  | cons nodeId rest ih =>
      intro nodes ir out data res ir2 nodes2 L hord hir h
      rw [runChainAux] at h
      rcases hn : lookupS nodes nodeId with - | node
      · rw [hn] at h; simp at h
      · rw [hn] at h
        dsimp only at h
        rcases hb : buildNodeData edges ir data nodeId node with e | d
        · rw [hb] at h; simp at h
        · rw [hb] at h
          dsimp only at h
          rcases hc : nodeCall node d true with ⟨⟨ret, err⟩, node2⟩
          rw [hc] at h
          rcases err with - | e
          · dsimp only at h
            refine ih _ _ _ _ _ _ _ _
              (fun nid hnid => hord nid (List.mem_cons_of_mem _ hnid)) ?_ h
            intro key hkey
            rcases mem_keys_ir_fold nodeId _ _ _ hkey with hk | ⟨s, hs⟩
            · exact hir key hk
            · exact ⟨nodeId, hord nodeId (List.mem_cons_self _ _), s, hs⟩
          · dsimp only at h
            simp at h

theorem setValue_value (o : Var) (v : Value) : (o.setValue v).value = v := by
  cases o
  rfl

/-- A successful projection stores on each output Var exactly the accessor
value at its location path. -/
theorem projectOutputs_values (payload : Value) :
    ∀ (outs outs2 : List Var), projectOutputs outs payload = (outs2, none) →
      outs2.map Var.value =
        outs.map (fun o => (getValueByKeys payload o.loc).getD Value.null) := by
  intro outs
  induction outs with
  | nil =>
      intro outs2 h
      simp only [projectOutputs, Prod.mk.injEq] at h
      rw [← h.1]
      simp
  | cons o rest ih =>
      intro outs2 h
      rw [projectOutputs] at h
      rcases hg : getValueByKeys payload o.loc with - | v
      · rw [hg] at h
        simp at h
      · rw [hg] at h
        rcases hp : projectOutputs rest payload with ⟨r2, err⟩
        rw [hp] at h
        rcases err with - | e
        · simp only [Prod.mk.injEq] at h
          rw [← h.1]
          simp only [List.map_cons, setValue_value, hg, Option.getD_some]
          rw [ih r2 hp]
        · simp at h

theorem irFetchStep_null_absent (ir : List (String × Value)) (req : String)
    (h : lookupS ir req = none) :
    ∀ (srcId : String) (d : List (String × Value)) (c : String × String),
      irFetchStep (setS ir req Value.null) srcId d c = irFetchStep ir srcId d c := by
  intro srcId d c
  unfold irFetchStep
  by_cases hk : srcId ++ "/" ++ c.1 = req
  · rw [hk, lookupS_setS_self, h]
  · rw [lookupS_setS_ne ir req _ Value.null hk]

/-- The data map builder only reads the IR through `irFetchStep`. -/
theorem buildNodeData_congr (edges : List Edge) (ir1 ir2 : List (String × Value))
    (data : List (String × Value)) (nodeId : String) (node : Node)
    (h : irFetchStep ir1 = irFetchStep ir2) :
    buildNodeData edges ir1 data nodeId node = buildNodeData edges ir2 data nodeId node := by
  unfold buildNodeData
  rw [h]

/-- Shared-input copy loop: the last write wins, so with duplicate-free
initial-input keys each declared key ends bound to its initial value. -/
theorem foldl_shared_untouched (node : Node) :
    ∀ (data acc : List (String × Value)) (k : String),
      k ∉ data.map Prod.fst →
      lookupS (data.foldl
        (fun d kv => if node.hasField kv.1 then setS d kv.1 kv.2 else d) acc) k =
      lookupS acc k := by
  intro data
  induction data with
  | nil => intro acc k _; rfl
  | cons kv rest ih =>
      intro acc k hk
      have h1 : kv.1 ≠ k := by
        intro hc
        exact hk (by simp [hc])
      have h2 : k ∉ rest.map Prod.fst := by
        intro hc
        exact hk (by simp [hc])
      rw [List.foldl_cons, ih _ _ h2]
      by_cases hf : node.hasField kv.1
      · rw [if_pos hf, lookupS_setS_ne _ _ _ _ (fun hc => h1 hc.symm)]
      · rw [if_neg hf]

theorem foldl_shared_lookup (node : Node) :
    ∀ (data acc : List (String × Value)) (k : String) (v : Value),
      (data.map Prod.fst).Nodup →
      lookupS data k = some v → node.hasField k = true →
      lookupS (data.foldl
        (fun d kv => if node.hasField kv.1 then setS d kv.1 kv.2 else d) acc) k =
      some v := by
  intro data
  induction data with
  | nil =>
      intro acc k v _ hl
      simp [lookupS] at hl
  | cons kv rest ih =>
      intro acc k v hnd hl hf
      obtain ⟨k0, v0⟩ := kv
      rw [List.map_cons, List.nodup_cons] at hnd
      by_cases h0 : k0 = k
      · subst h0
        have hv : v0 = v := by
          simpa [lookupS] using hl
        subst hv
        rw [List.foldl_cons]
        dsimp only
        rw [if_pos hf, foldl_shared_untouched node rest _ k0 hnd.1,
          lookupS_setS_self]
      · have hl' : lookupS rest k = some v := by
          simpa [lookupS, h0] using hl
        rw [List.foldl_cons]
        exact ih _ k v hnd.2 hl' hf

/-! ## Claims C1, C2, C3 -/

/-- C1: topological soundness — for every Chain whose construction
succeeds and every edge `(u, v)` in its edge list, `u` appears strictly
before `v` in the Chain's `topo_order`. -/
theorem claim_C1_topo_soundness (nodes : List Node) (edges : List Edge)
    (c : Chain) (h : chainInit nodes edges = .ok c) :
    ∀ e ∈ edges, e.src_node_id ∈ c.topo_order ∧ e.trg_node_id ∈ c.topo_order ∧
      idxOf c.topo_order e.src_node_id < idxOf c.topo_order e.trg_node_id := by
  intro e he
  have htopo : topologicalSort edges = .ok c.topo_order := by
    rw [chainInit] at h
    rcases hts : topologicalSort edges with er | topo
    · rw [hts] at h
      simp at h
    · rw [hts] at h
      dsimp only at h
      rcases hf : topo.find? (fun nid =>
          (lookupS (nodes.foldl (fun m n => setS m n.id n) []) nid).isNone) with - | nid
      · rw [hf] at h
        dsimp only at h
        have hc : (⟨nodes.foldl (fun m n => setS m n.id n) [], edges, topo⟩ : Chain)
            = c := by
          simpa using h
        subst hc
        rfl
      · rw [hf] at h
        simp at h
  obtain ⟨-, -, -, hord⟩ := topologicalSort_ok_spec edges c.topo_order htopo
  exact hord e.src_node_id e.trg_node_id ⟨e, he, rfl, rfl⟩

def c1NodeA : Node := ⟨"A", "programatic", fun _ => (Value.null, none), [], [], ""⟩

def c1NodeB : Node := ⟨"B", "programatic", fun _ => (Value.null, none), [], [], ""⟩

def c1Edge : Edge := ⟨"A", "B", [("x", "y")]⟩

def c1Chain : Chain := ⟨[("A", c1NodeA), ("B", c1NodeB)], [c1Edge], ["A", "B"]⟩

/-- C1 witness: a concrete two-node chain. -/
theorem claim_C1_topo_soundness_witness :
    chainInit [c1NodeA, c1NodeB] [c1Edge] = .ok c1Chain ∧
    ("A" ∈ c1Chain.topo_order ∧ "B" ∈ c1Chain.topo_order ∧
      idxOf c1Chain.topo_order "A" < idxOf c1Chain.topo_order "B") :=
  ⟨rfl, claim_C1_topo_soundness [c1NodeA, c1NodeB] [c1Edge] c1Chain rfl c1Edge
    (List.mem_cons_self _ _)⟩

/-- C2: cycle rejection — Chain construction (equivalently,
`topological_sort`) fails with `NotDAGError` exactly when the underlying
directed graph of the edge list contains a cycle; on an acyclic edge list
`topological_sort` returns an order without raising. -/
theorem claim_C2_cycle_rejection (nodes : List Node) (edges : List Edge) :
    (HasCycle edges →
      chainInit nodes edges = .error .notDAGError ∧
      topologicalSort edges = .error .notDAGError) ∧
    (topologicalSort edges = .error .notDAGError ↔ HasCycle edges) := by
  have herr : HasCycle edges → topologicalSort edges = .error .notDAGError := by
    intro hc
    rcases topologicalSort_cases edges with ⟨o, ho⟩ | h
    · exact (cycle_not_ok edges o ho hc).elim
    · exact h
  constructor
  · intro hc
    refine ⟨?_, herr hc⟩
    rw [chainInit, herr hc]
  · constructor
    · intro h
      by_contra hnc
      obtain ⟨o, ho⟩ := acyclic_ok edges hnc
      rw [ho] at h
      exact absurd h (by simp)
    · exact herr

def c2EdgeAB : Edge := ⟨"A", "B", []⟩

def c2EdgeBA : Edge := ⟨"B", "A", []⟩

/-- C2 witness: the two-edge cycle `A→B`, `B→A` is rejected, and the
acyclic singleton edge list is sorted. -/
theorem claim_C2_cycle_rejection_witness :
    chainInit [] [c2EdgeAB, c2EdgeBA] = .error ChainError.notDAGError ∧
    topologicalSort [c2EdgeAB] = .ok ["A", "B"] := by
  have hcyc : HasCycle [c2EdgeAB, c2EdgeBA] := by
    have h1 : EdgeRel [c2EdgeAB, c2EdgeBA] "A" "B" :=
      ⟨c2EdgeAB, List.mem_cons_self _ _, rfl, rfl⟩
    have h2 : EdgeRel [c2EdgeAB, c2EdgeBA] "B" "A" :=
      ⟨c2EdgeBA, List.mem_cons_of_mem _ (List.mem_cons_self _ _), rfl, rfl⟩
    exact ⟨"A", Relation.TransGen.head h1 (Relation.TransGen.single h2)⟩
  exact ⟨((claim_C2_cycle_rejection [] [c2EdgeAB, c2EdgeBA]).1 hcyc).1, rfl⟩

def c3Payload : Value := Value.dict [(Key.str "a", Value.num 1), (Key.str "b", Value.num 2)]

def c3Node : Node := ⟨"N", "programatic", fun _ => (c3Payload, none), [],
  [((var0 (.s "string")).withName "x").withLoc [Key.str "a"]], ""⟩

/-- C3 counterexample: with `ret_fields = False` the call does NOT return
the payload unchanged — the early-return is commented out in the source, so
projection always runs and the result is the projected map `{x: 1}`, not
the payload `{a: 1, b: 2}`. -/
theorem claim_C3_counterexample :
    ¬ ((nodeCall c3Node [] false).1.1 = c3Payload) := by
  intro h
  have h1 : (valueItems (nodeCall c3Node [] false).1.1).length = 1 := rfl
  rw [h] at h1
  have h2 : (valueItems c3Payload).length = 2 := rfl
  rw [h2] at h1
  omega

/-- C3 amended: `ret_fields` is ignored — invocation with
`project_outputs = False` behaves identically to `project_outputs = True`,
returning the projected `{o.name: o.value}` map, never the raw payload. -/
theorem claim_C3_amended (node : Node) (data : List (String × Value)) :
    nodeCall node data false = nodeCall node data true := rfl

/-! ## Claims C7, C8, C9, C10 -/

/-- C7: shared-input routing — whenever the executor's data-map builder
succeeds for a node, every initial-input key the node declares is bound in
the node's invocation data to its initial value, overriding any
edge-delivered value for the same field (the copy loop runs after the edge
loop); `data` itself is only read (the executor threads the same map to
every node, and the embedding passes it unchanged by construction). -/
theorem claim_C7_shared_inputs (edges : List Edge) (ir data : List (String × Value))
    (nodeId : String) (node : Node) (d : List (String × Value))
    (hnd : (data.map Prod.fst).Nodup)
    (hok : buildNodeData edges ir data nodeId node = .ok d) :
    ∀ k v, lookupS data k = some v → node.hasField k = true →
      lookupS d k = some v := by
  intro k v hl hf
  rw [buildNodeData] at hok
  rcases hfold : (edges.filter (fun e => e.trg_node_id = nodeId)).foldlM
      (fun d e => e.connections.foldlM (irFetchStep ir e.src_node_id) d)
      ([] : List (String × Value)) with er | d1
  · rw [hfold] at hok
    simp only [Bind.bind, Except.bind] at hok
    exact absurd hok (by simp)
  · rw [hfold] at hok
    simp only [Bind.bind, Except.bind, pure, Except.pure, Except.ok.injEq] at hok
    rw [← hok]
    exact foldl_shared_lookup node data d1 k v hnd hl hf

def c7Node : Node := ⟨"N", "programatic", fun _ => (Value.null, none),
  [(var0 (.s "string")).withName "key"], [], ""⟩

/-- C7 witness: a declared key is copied from the initial inputs, an
undeclared one is not. -/
theorem claim_C7_shared_inputs_witness :
    lookupS [("key", Value.str "v")] "key" = some (Value.str "v") :=
  claim_C7_shared_inputs [] [] [("key", Value.str "v"), ("other", Value.num 5)]
    "N" c7Node [("key", Value.str "v")] (by decide) rfl "key" (Value.str "v") rfl rfl

def c8Node : Node := ⟨"M", "programatic", fun _ => (Value.num 7, none), [],
  [var0 (.s "number")], ""⟩

/-- C8 counterexample: projection DOES store the projected value on the
Node's output Var — after a successful projected call the output Var's
`value` is the projected `7`, not the pre-call `null`. -/
theorem claim_C8_counterexample :
    ¬ ((nodeCall c8Node [] true).2.outputs.map Var.value =
        c8Node.outputs.map Var.value) := by
  intro h
  have h1 : (nodeCall c8Node [] true).2.outputs.map Var.value = [Value.num 7] := rfl
  rw [h] at h1
  have h2 : c8Node.outputs.map Var.value = [Value.null] := rfl
  rw [h2] at h1
  injection h1 with hh _
  exact Value.noConfusion hh

/-- C8 amended: Node invocation with projection mutates each output Var,
storing on it `get_value_by_keys(payload, o._loc)`; the values live both on
the shared Var objects and in the returned map. -/
theorem claim_C8_amended (node : Node) (data : List (String × Value))
    (payload : Value) (outs2 : List Var)
    (hk : (data.map Prod.fst).all (fun k => node.fields.any (fun f => f.name = k)) = true)
    (hf : node.fn data = (payload, none))
    (hp : projectOutputs node.outputs payload = (outs2, none)) :
    (nodeCall node data true).2.outputs = outs2 ∧
    (nodeCall node data true).2.outputs.map Var.value =
      node.outputs.map (fun o => (getValueByKeys payload o.loc).getD Value.null) := by
  have hmain : nodeCall node data true =
      ((Value.dict (outs2.foldl (fun m o => dictSetK m (Key.str o.name) o.value) []),
        none), { node with outputs := outs2 }) := by
    rw [nodeCall, if_pos hk, hf]
    dsimp only
    rw [hp]
  rw [hmain]
  exact ⟨rfl, projectOutputs_values payload node.outputs outs2 hp⟩

/-- C8 amended witness: the concrete projected value is stored on the Var. -/
theorem claim_C8_amended_witness :
    (nodeCall c8Node [] true).2.outputs.map Var.value =
      c8Node.outputs.map (fun o => (getValueByKeys (Value.num 7) o.loc).getD Value.null) :=
  (claim_C8_amended c8Node [] (Value.num 7)
    [(var0 (.s "number")).setValue (Value.num 7)] rfl rfl rfl).2

/-- C9: a node that is the endpoint of no edge never appears in
`topo_order` (computed from the edges alone); every IR key written by a
successful run belongs to a node of `topo_order` (`<id>/<name>`); sorting
an empty edge list yields the empty order, and a Chain whose `topo_order`
is empty executes no node at all (`(None, {})`). -/
theorem claim_C9_isolated_nodes (id : String) (edges : List Edge)
    (order : List String) (c : Chain) (data : List (String × Value))
    (out : Option Value) (ir : List (String × Value)) :
    ((∀ e ∈ edges, e.src_node_id ≠ id ∧ e.trg_node_id ≠ id) →
      topologicalSort edges = .ok order → id ∉ order) ∧
    (runChain c data = .ok (out, ir) →
      ∀ key ∈ ir.map Prod.fst, ∃ nid ∈ c.topo_order, ∃ s, key = nid ++ "/" ++ s) ∧
    topologicalSort ([] : List Edge) = .ok [] ∧
    (c.topo_order = [] → runChain c data = .ok (none, [])) := by
  refine ⟨?_, ?_, rfl, ?_⟩
  · intro hnotouch hok hmem
    obtain ⟨-, -, hall, -⟩ := topologicalSort_ok_spec edges order hok
    have := hall id hmem
    unfold allNodesList at this
    rcases List.mem_append.mp this with h | h
    · rw [mem_keys_iff] at h
      obtain ⟨e, he, hsrc⟩ := h
      exact (hnotouch e he).1 hsrc
    · rw [mem_targets_iff] at h
      obtain ⟨e, he, htrg⟩ := h
      exact (hnotouch e he).2 htrg
  · intro hrun
    rw [runChain] at hrun
    rcases hra : runChainAux c.edges c.topo_order c.nodes [] none data
        with er | ⟨res, ir2, nodes2⟩
    · rw [hra] at hrun
      simp at hrun
    · rw [hra] at hrun
      dsimp only at hrun
      have h1 : res = out ∧ ir2 = ir := by simpa using hrun
      obtain ⟨-, h2⟩ := h1
      subst h2
      exact runChainAux_ir_keys c.edges c.topo_order c.nodes [] none data res ir2
        nodes2 c.topo_order (fun nid h => h) (by simp) hra
  · intro h0
    rw [runChain, h0]
    rfl

def c9Node : Node := ⟨"Z", "programatic", fun _ => (Value.null, none), [], [], ""⟩

/-- C9 witness: `Z` touches no edge and is absent from the order; a chain
with a node but no edges runs nothing. -/
theorem claim_C9_isolated_nodes_witness :
    "Z" ∉ ["A", "B"] ∧
    runChain ⟨[("Z", c9Node)], [], []⟩ [] = .ok (none, []) := by
  constructor
  · exact (claim_C9_isolated_nodes "Z" [c1Edge] ["A", "B"]
      ⟨[("Z", c9Node)], [], []⟩ [] none []).1
      (by
        intro e he
        rw [List.mem_singleton] at he
        subst he
        exact ⟨by decide, by decide⟩) rfl
  · exact (claim_C9_isolated_nodes "Z" [] [] ⟨[("Z", c9Node)], [], []⟩ [] none
      []).2.2.2 rfl

/-- C10: a null-valued IR entry is treated the same as an absent one.
Storing `null` under a key the IR did not hold leaves the data-map builder's
behaviour unchanged; for a connection whose required key
`<src_node_id>/<src_out>` is absent OR bound to null, the builder fails
with the `Missing value for <key>` error; and output projection writes
null whenever its location path misses the payload (a missing dict key
yields null for any remaining path). -/
theorem claim_C10_null_is_missing (edges : List Edge)
    (ir data : List (String × Value)) (req : String) (nodeId : String)
    (node : Node) :
    (lookupS ir req = none →
      buildNodeData edges (setS ir req Value.null) data nodeId node =
        buildNodeData edges ir data nodeId node) ∧
    (∀ (e : Edge) (srcOut trgField : String), e.trg_node_id = nodeId →
      e.connections = [(srcOut, trgField)] →
      (lookupS ir (e.src_node_id ++ "/" ++ srcOut) = none ∨
        lookupS ir (e.src_node_id ++ "/" ++ srcOut) = some Value.null) →
      buildNodeData [e] ir data nodeId node =
        .error (.missingValue (e.src_node_id ++ "/" ++ srcOut))) ∧
    (∀ (fs : List (Key × Value)) (k : Key) (rest : List Key),
      dictFind fs k = none →
      getValueByKeys (Value.dict fs) (k :: rest) = some Value.null) := by
  refine ⟨?_, ?_, ?_⟩
  · intro habs
    apply buildNodeData_congr
    funext srcId d c
    exact irFetchStep_null_absent ir req habs srcId d c
  · intro e srcOut trgField htrg hconn hlook
    rw [buildNodeData]
    have hfilter : [e].filter (fun e' => e'.trg_node_id = nodeId) = [e] := by
      simp [htrg]
    rw [hfilter]
    have hinner : e.connections.foldlM (irFetchStep ir e.src_node_id)
        ([] : List (String × Value)) =
        .error (.missingValue (e.src_node_id ++ "/" ++ srcOut)) := by
      rw [hconn]
      have hstep : irFetchStep ir e.src_node_id [] (srcOut, trgField) =
          .error (.missingValue (e.src_node_id ++ "/" ++ srcOut)) := by
        rw [irFetchStep]
        rcases hlook with h | h <;> rw [h]
      simp only [List.foldlM_cons, hstep, List.foldlM_nil]
      rfl
    simp only [List.foldlM_cons, List.foldlM_nil]
    rw [hinner]
    rfl
  · intro fs k rest h
    cases rest with
    | nil => simp [getValueByKeys, h]
    | cons r rs => simp [getValueByKeys, h]

def c10Node : Node := ⟨"N", "programatic", fun _ => (Value.null, none), [], [], ""⟩

def c10Edge : Edge := ⟨"G", "N", [("y", "x")]⟩

/-- C10 witness: a ghost node's null-valued IR entry produces the same
`Missing value for G/y` failure as an absent one. -/
theorem claim_C10_null_is_missing_witness :
    buildNodeData [] (setS [] "G/y" Value.null) [] "N" c10Node =
      buildNodeData [] [] [] "N" c10Node ∧
    buildNodeData [c10Edge] [("G/y", Value.null)] [] "N" c10Node =
      .error (.missingValue "G/y") ∧
    getValueByKeys (Value.dict []) [Key.str "nope"] = some Value.null :=
  ⟨(claim_C10_null_is_missing [] [] [] "G/y" "N" c10Node).1 rfl,
   (claim_C10_null_is_missing [c10Edge] [("G/y", Value.null)] [] "" "N"
      c10Node).2.1 c10Edge "y" "x" rfl rfl (Or.inr rfl),
   (claim_C10_null_is_missing [] [] [] "" "N" c10Node).2.2 [] (Key.str "nope")
      [] rfl⟩
